import Mathlib

/-!
Verification of the disjoint-set (union-find) data structure of this
repository.  The repository contains two Python variants of the same
structure: `union_find.py` (union by rank) and `Union_find_by_Size.py`
(union by size), both with recursive path-compressing `find`.

The embedding models the `parent` array as a `List Nat`, Python list
indexing (including negative indices) as `pyIdx`, and the recursive
`find` as the fuel-indexed `findE`, which returns the result together
with the state of the array when the call returns or raises
(`none` models a raised `IndexError`).
-/

/-- Python list indexing: `l[x]` on a list of length `n` accepts
`-n ≤ x < n`; a negative `x` addresses entry `n + x`. Returns the
effective non-negative index, or `none` when Python raises `IndexError`. -/
def pyIdx (n : Nat) (x : Int) : Option Nat :=
  if 0 ≤ x then (if x < (n : Int) then some x.toNat else none)
  else (if -(n : Int) ≤ x then some (x + (n : Int)).toNat else none)

/-- One step of the parent chain: the entry of `l` at `i`. -/
def step (l : List Nat) (i : Nat) : Nat := l.getD i 0

/-- Element `i` is a root: its parent entry is itself (`parent[i] == i`). -/
def isRoot (l : List Nat) (i : Nat) : Prop := step l i = i

instance (l : List Nat) (i : Nat) : Decidable (isRoot l i) :=
  inferInstanceAs (Decidable (_ = _))

/-- Follow the parent chain for at most `f` steps, returning the first
fixed point found (the root, when the fuel suffices). -/
def rootAux : Nat → List Nat → Nat → Nat
  | 0, _, i => i
  | f + 1, l, i => if step l i = i then i else rootAux f l (step l i)

/-- The root of the tree containing `i` (fuel `l.length + 1` always
suffices on forest-shaped states). -/
def rootOf (l : List Nat) (i : Nat) : Nat := rootAux (l.length + 1) l i

/-- Root `r` is reachable from `i` along the parent chain and is a root. -/
def RootOf (l : List Nat) (i r : Nat) : Prop :=
  (∃ k, (step l)^[k] i = r) ∧ isRoot l r

/-- The chain of nodes visited by `find` starting at `i`: `i`, its
parent, and so on, up to and including the first root (fuel-bounded). -/
def chainAux : Nat → List Nat → Nat → List Nat
  | 0, _, _ => []
  | f + 1, l, i => if step l i = i then [i] else i :: chainAux f l (step l i)

/-- The visited chain from `i`, with enough fuel for any forest state. -/
def chainOf (l : List Nat) (i : Nat) : List Nat := chainAux (l.length + 1) l i

/-- Elements `a` and `b` lie in the same set of the partition represented by `l`. -/
def sameSetL (l : List Nat) (a b : Nat) : Prop := rootOf l a = rootOf l b

instance (l : List Nat) (a b : Nat) : Decidable (sameSetL l a b) :=
  inferInstanceAs (Decidable (_ = _))

/-- The forest invariant of a parent array: every entry is in range and
every element reaches a root in at most `l.length` steps. -/
def Forest (l : List Nat) : Prop :=
  ∀ i < l.length, l.getD i 0 < l.length ∧
    ∃ k ≤ l.length, isRoot l ((step l)^[k] i)

instance (l : List Nat) : Decidable (Forest l) :=
  decidable_of_iff
    (((List.range l.length).all (fun i => decide (l.getD i 0 < l.length) &&
      (List.range (l.length + 1)).any
        (fun k => decide (isRoot l ((step l)^[k] i))))) = true)
    (by simp [Forest, List.all_eq_true, List.any_eq_true, List.mem_range,
          Nat.lt_succ_iff])

/-- The recursive `find` of both variants, on the parent array:
`if x != parent[x]: parent[x] = find(parent[x]); return parent[x]`.
The first component is the returned root (`none` models a raised
`IndexError` or, at fuel exhaustion, a `RecursionError`); the second is
the parent array at the moment the call returns or the error escapes. -/
def findE : Nat → List Nat → Int → Option Nat × List Nat
  | 0, l, _ => (none, l)
  | f + 1, l, x =>
    match pyIdx l.length x with
    | none => (none, l)
    | some i =>
      if x = ((l.getD i 0 : Nat) : Int) then (some (l.getD i 0), l)
      else
        match findE f l ((l.getD i 0 : Nat) : Int) with
        | (none, l') => (none, l')
        | (some r, l') => (some ((l'.set i r).getD i 0), l'.set i r)

/-- The shared `is_connected` of both variants, on the parent array:
`return find(x) == find(y)`. -/
def connE (l : List Nat) (x y : Int) : Option Bool × List Nat :=
  match findE (l.length + 1) l x with
  | (none, l1) => (none, l1)
  | (some rx, l1) =>
    match findE (l1.length + 1) l1 y with
    | (none, l2) => (none, l2)
    | (some ry, l2) => (some (decide (rx = ry)), l2)

/-- An operation of the public API, with raw (possibly invalid) integer
arguments, used to model arbitrary call sequences. -/
inductive Op where
  | find : Int → Op
  | union : Int → Int → Op
  | conn : Int → Int → Op

namespace ByRank

/-- The `DisjointSet` of `union_find.py` (union by rank). -/
structure DisjointSet where
  parent : List Nat
  rank : List Nat
  deriving DecidableEq

/-- Constructor `__init__`: `parent = [i for i in range(size)]`, `rank = [0] * size`. -/
def init (size : Nat) : DisjointSet :=
  ⟨List.range size, List.replicate size 0⟩

/-- Method `find` of `union_find.py`. -/
def find (s : DisjointSet) (x : Int) : Option Nat × DisjointSet :=
  match findE (s.parent.length + 1) s.parent x with
  | (res, p) => (res, ⟨p, s.rank⟩)

/-- Method `union` of `union_find.py` (union by rank). -/
def union (s : DisjointSet) (x y : Int) : Option Bool × DisjointSet :=
  match find s x with
  | (none, s1) => (none, s1)
  | (some ultimate_parent_of_x, s1) =>
    match find s1 y with
    | (none, s2) => (none, s2)
    | (some ultimate_parent_of_y, s2) =>
      if ultimate_parent_of_x = ultimate_parent_of_y then (some false, s2)
      else if s2.rank.getD ultimate_parent_of_x 0 <
          s2.rank.getD ultimate_parent_of_y 0 then
        (some true,
          ⟨s2.parent.set ultimate_parent_of_x ultimate_parent_of_y, s2.rank⟩)
      else if s2.rank.getD ultimate_parent_of_y 0 <
          s2.rank.getD ultimate_parent_of_x 0 then
        (some true,
          ⟨s2.parent.set ultimate_parent_of_y ultimate_parent_of_x, s2.rank⟩)
      else
        (some true,
          ⟨s2.parent.set ultimate_parent_of_y ultimate_parent_of_x,
            s2.rank.set ultimate_parent_of_x
              (s2.rank.getD ultimate_parent_of_x 0 + 1)⟩)

/-- Method `is_connected` of `union_find.py`. -/
def is_connected (s : DisjointSet) (x y : Int) : Option Bool × DisjointSet :=
  match connE s.parent x y with
  | (res, p) => (res, ⟨p, s.rank⟩)

/-- The state after one API call (the Python object survives a raised
exception with its state at the raise point). -/
def applyOp (s : DisjointSet) : Op → DisjointSet
  | Op.find x => (find s x).2
  | Op.union x y => (union s x y).2
  | Op.conn x y => (is_connected s x y).2

/-- The state after a sequence of API calls. -/
def exec (s : DisjointSet) (ops : List Op) : DisjointSet :=
  ops.foldl applyOp s

/-- States reachable from a fresh structure of size `n` by some
sequence of API calls. -/
def Reachable (n : Nat) (s : DisjointSet) : Prop :=
  ∃ ops, s = exec (init n) ops

end ByRank

namespace BySize

/-- The `DisjointSet` of `Union_find_by_Size.py` (union by size). -/
structure DisjointSet where
  parent : List Nat
  size : List Nat
  deriving DecidableEq

/-- Constructor `__init__`: `parent = [i for i in range(size)]`, `size = [1] * size`. -/
def init (size : Nat) : DisjointSet :=
  ⟨List.range size, List.replicate size 1⟩

/-- Method `find` of `Union_find_by_Size.py`. -/
def find (s : DisjointSet) (x : Int) : Option Nat × DisjointSet :=
  match findE (s.parent.length + 1) s.parent x with
  | (res, p) => (res, ⟨p, s.size⟩)

/-- Method `union` of `Union_find_by_Size.py` (union by size). -/
def union (s : DisjointSet) (x y : Int) : Option Bool × DisjointSet :=
  match find s x with
  | (none, s1) => (none, s1)
  | (some rootX, s1) =>
    match find s1 y with
    | (none, s2) => (none, s2)
    | (some rootY, s2) =>
      if rootX = rootY then (some false, s2)
      else if s2.size.getD rootX 0 < s2.size.getD rootY 0 then
        (some true,
          ⟨s2.parent.set rootX rootY,
            s2.size.set rootY (s2.size.getD rootY 0 + s2.size.getD rootX 0)⟩)
      else
        (some true,
          ⟨s2.parent.set rootY rootX,
            s2.size.set rootX (s2.size.getD rootX 0 + s2.size.getD rootY 0)⟩)

/-- Method `is_connected` of `Union_find_by_Size.py`. -/
def is_connected (s : DisjointSet) (x y : Int) : Option Bool × DisjointSet :=
  match connE s.parent x y with
  | (res, p) => (res, ⟨p, s.size⟩)

/-- The state after one API call. -/
def applyOp (s : DisjointSet) : Op → DisjointSet
  | Op.find x => (find s x).2
  | Op.union x y => (union s x y).2
  | Op.conn x y => (is_connected s x y).2

/-- The state after a sequence of API calls. -/
def exec (s : DisjointSet) (ops : List Op) : DisjointSet :=
  ops.foldl applyOp s

/-- States reachable from a fresh structure of size `n`. -/
def Reachable (n : Nat) (s : DisjointSet) : Prop :=
  ∃ ops, s = exec (init n) ops

end BySize

/-- The number of elements of `[0, l.length)` whose set has root `r`. -/
def classCard (l : List Nat) (r : Nat) : Nat :=
  ((Finset.range l.length).filter (fun i => rootOf l i = r)).card

/-! ### Basic list and indexing lemmas -/

theorem getD_set_self {l : List Nat} {i v : Nat} (h : i < l.length) :
    (l.set i v).getD i 0 = v := by
  induction l generalizing i with
  | nil => simp at h
  | cons a t ih =>
    cases i with
    | zero => rfl
    | succ j => simpa using ih (by simpa using h)

theorem getD_set_ne {l : List Nat} {i j v : Nat} (h : i ≠ j) :
    (l.set i v).getD j 0 = l.getD j 0 := by
  induction l generalizing i j with
  | nil => rfl
  | cons a t ih =>
    cases i with
    | zero =>
      cases j with
      | zero => exact absurd rfl h
      | succ j' => rfl
    | succ i' =>
      cases j with
      | zero => rfl
      | succ j' => simpa using ih (fun hh => h (by rw [hh]))

theorem pyIdx_ofNat {n j : Nat} (h : j < n) : pyIdx n (j : Int) = some j := by
  unfold pyIdx
  rw [if_pos (Int.ofNat_nonneg j), if_pos (by exact_mod_cast h)]
  simp

theorem pyIdx_none_of_ge {n : Nat} {x : Int} (h : (n : Int) ≤ x) :
    pyIdx n x = none := by
  have h0 : 0 ≤ x := le_trans (Int.ofNat_nonneg n) h
  simp [pyIdx, h0, not_lt.mpr h]

theorem pyIdx_none_of_lt {n : Nat} {x : Int} (h : x < -(n : Int)) :
    pyIdx n x = none := by
  have h0 : ¬ 0 ≤ x := by omega
  have h1 : ¬ -(n : Int) ≤ x := by omega
  simp [pyIdx, h0, h1]

theorem pyIdx_neg {n : Nat} {x : Int} (h1 : -(n : Int) ≤ x) (h2 : x < 0) :
    pyIdx n x = some (x + (n : Int)).toNat ∧ (x + (n : Int)).toNat < n := by
  have h0 : ¬ 0 ≤ x := by omega
  refine ⟨by simp [pyIdx, h0, h1], by omega⟩

theorem pyIdx_some_lt {n : Nat} {x : Int} {i : Nat} (h : pyIdx n x = some i) :
    i < n := by
  unfold pyIdx at h
  split_ifs at h with h1 h2 h3 <;> simp at h <;> omega

/-! ### Roots and chains -/

theorem iterate_fixed_root {l : List Nat} {r : Nat} (h : isRoot l r) (k : Nat) :
    (step l)^[k] r = r := Function.iterate_fixed h k

theorem reachRootMono {l : List Nat} {i r : Nat} {k k' : Nat}
    (hr : isRoot l r) (hk : (step l)^[k] i = r) (hle : k ≤ k') :
    (step l)^[k'] i = r := by
  have h1 : (step l)^[(k' - k) + k] i = (step l)^[k' - k] ((step l)^[k] i) :=
    Function.iterate_add_apply _ _ _ _
  rw [Nat.sub_add_cancel hle] at h1
  rw [h1, hk, iterate_fixed_root hr]

theorem RootOf_unique {l : List Nat} {i r r' : Nat}
    (h : RootOf l i r) (h' : RootOf l i r') : r = r' := by
  obtain ⟨⟨k, hk⟩, hr⟩ := h
  obtain ⟨⟨k', hk'⟩, hr'⟩ := h'
  rcases le_total k k' with hle | hle
  · rw [← reachRootMono hr hk hle, hk']
  · rw [← hk, reachRootMono hr' hk' hle]

theorem rootAux_eq {l : List Nat} :
    ∀ (k f i : Nat), k ≤ f → isRoot l ((step l)^[k] i) →
      rootAux f l i = (step l)^[k] i := by
  intro k
  induction k with
  | zero =>
    intro f i _ h
    rw [Function.iterate_zero_apply] at h ⊢
    have h' : step l i = i := h
    cases f with
    | zero => rfl
    | succ f' => simp [rootAux, h']
  | succ k ih =>
    intro f i hkf h
    cases f with
    | zero => omega
    | succ f' =>
      by_cases hri : step l i = i
      · rw [iterate_fixed_root hri]
        simp [rootAux, hri]
      · have h2 : isRoot l ((step l)^[k] (step l i)) := by
          rw [← Function.iterate_succ_apply]; exact h
        have h3 := ih f' (step l i) (by omega) h2
        simp only [rootAux, hri, if_false, h3, Function.iterate_succ_apply]

theorem forest_step_lt {l : List Nat} (h : Forest l) {i : Nat}
    (hi : i < l.length) : step l i < l.length := (h i hi).1

theorem iterate_lt {l : List Nat} (h : Forest l) {i : Nat}
    (hi : i < l.length) (m : Nat) : (step l)^[m] i < l.length := by
  induction m with
  | zero => simpa using hi
  | succ m ihm =>
    rw [Function.iterate_succ_apply']
    exact forest_step_lt h ihm

theorem rootOf_spec {l : List Nat} (h : Forest l) {i : Nat}
    (hi : i < l.length) : RootOf l i (rootOf l i) := by
  obtain ⟨k, hk, hroot⟩ := (h i hi).2
  have := rootAux_eq k (l.length + 1) i (by omega) hroot
  unfold rootOf
  rw [this]
  exact ⟨⟨k, rfl⟩, hroot⟩

theorem rootOf_eq_of {l : List Nat} (h : Forest l) {i r : Nat}
    (hi : i < l.length) (hr : RootOf l i r) : rootOf l i = r :=
  RootOf_unique (rootOf_spec h hi) hr

theorem isRoot_rootOf {l : List Nat} (h : Forest l) {i : Nat}
    (hi : i < l.length) : isRoot l (rootOf l i) := (rootOf_spec h hi).2

theorem rootOf_lt {l : List Nat} (h : Forest l) {i : Nat}
    (hi : i < l.length) : rootOf l i < l.length := by
  obtain ⟨⟨k, hk⟩, _⟩ := rootOf_spec h hi
  rw [← hk]
  exact iterate_lt h hi k

theorem rootOf_isRoot {l : List Nat} {i : Nat} (h : isRoot l i) :
    rootOf l i = i := by
  unfold rootOf
  have := rootAux_eq 0 (l.length + 1) i (by omega) (by simpa using h)
  simpa using this

theorem rootOf_step {l : List Nat} (h : Forest l) {i : Nat}
    (hi : i < l.length) (hni : ¬ isRoot l i) :
    rootOf l (step l i) = rootOf l i := by
  obtain ⟨⟨k, hk⟩, hr⟩ := rootOf_spec h hi
  cases k with
  | zero =>
    rw [Function.iterate_zero_apply] at hk
    rw [← hk] at hr
    exact absurd hr hni
  | succ k' =>
    refine rootOf_eq_of h (forest_step_lt h hi) ⟨⟨k', ?_⟩, hr⟩
    rw [← Function.iterate_succ_apply]
    exact hk

theorem isRoot_iff_rootOf_eq {l : List Nat} (h : Forest l) {r : Nat}
    (hr : r < l.length) : isRoot l r ↔ rootOf l r = r := by
  constructor
  · exact rootOf_isRoot
  · intro he
    have := isRoot_rootOf h hr
    rwa [he] at this

/-! ### A root is always reached within `l.length` steps (pigeonhole) -/

theorem iterate_reduce {l : List Nat} {i a b : Nat} (hab : a < b)
    (heq : (step l)^[b] i = (step l)^[a] i) :
    ∀ (k : Nat), a ≤ k → (step l)^[k] i = (step l)^[a + (k - a) % (b - a)] i := by
  have hper : ∀ j, a ≤ j → (step l)^[j + (b - a)] i = (step l)^[j] i := by
    intro j hj
    have e1 : (step l)^[j] i = (step l)^[j - a] ((step l)^[a] i) := by
      rw [← Function.iterate_add_apply, Nat.sub_add_cancel hj]
    have e2 : (step l)^[j + (b - a)] i = (step l)^[j - a] ((step l)^[b] i) := by
      rw [← Function.iterate_add_apply]
      congr 1
      omega
    rw [e1, e2, heq]
  intro k hk
  have key : ∀ m, (step l)^[a + m] i = (step l)^[a + m % (b - a)] i := by
    intro m
    induction m using Nat.strong_induction_on with
    | _ m ihm =>
      by_cases hm : m < b - a
      · rw [Nat.mod_eq_of_lt hm]
      · push_neg at hm
        have h1 : a + m = (a + (m - (b - a))) + (b - a) := by omega
        rw [h1, hper _ (by omega), ihm (m - (b - a)) (by omega)]
        have e4 : (m - (b - a)) % (b - a) = m % (b - a) := by
          conv_rhs => rw [show m = (m - (b - a)) + (b - a) by omega]
          rw [Nat.add_mod_right]
        rw [e4]
  have h3 : k = a + (k - a) := by omega
  conv_lhs => rw [h3]
  exact key (k - a)

theorem reach_bound {l : List Nat}
    (hlt : ∀ j < l.length, step l j < l.length) {i : Nat} (hi : i < l.length)
    (h : ∃ k, isRoot l ((step l)^[k] i)) :
    ∃ k ≤ l.length, isRoot l ((step l)^[k] i) := by
  obtain ⟨k, hk⟩ := h
  by_cases hkn : k ≤ l.length
  · exact ⟨k, hkn, hk⟩
  · push_neg at hkn
    have hit : ∀ m, (step l)^[m] i < l.length := by
      intro m
      induction m with
      | zero => simpa using hi
      | succ m ihm =>
        rw [Function.iterate_succ_apply']
        exact hlt _ ihm
    have hmap : ∀ m ∈ Finset.range (l.length + 1),
        (step l)^[m] i ∈ Finset.range l.length :=
      fun m _ => Finset.mem_range.mpr (hit m)
    have hcard : (Finset.range l.length).card < (Finset.range (l.length + 1)).card := by
      simp
    obtain ⟨a, ha, b, hb, hab, heq⟩ :=
      Finset.exists_ne_map_eq_of_card_lt_of_maps_to hcard hmap
    rcases hab.lt_or_lt with hlt' | hlt'
    · have hb' : b ≤ l.length := by
        have := Finset.mem_range.mp hb
        omega
      have := iterate_reduce hlt' (heq.symm ▸ rfl : (step l)^[b] i = (step l)^[a] i) k (by omega)
      refine ⟨a + (k - a) % (b - a), ?_, ?_⟩
      · have := Nat.mod_lt (k - a) (show 0 < b - a by omega)
        omega
      · rw [← this]
        exact hk
    · have ha' : a ≤ l.length := by
        have := Finset.mem_range.mp ha
        omega
      have := iterate_reduce hlt' (heq ▸ rfl : (step l)^[a] i = (step l)^[b] i) k (by omega)
      refine ⟨b + (k - b) % (a - b), ?_, ?_⟩
      · have := Nat.mod_lt (k - b) (show 0 < a - b by omega)
        omega
      · rw [← this]
        exact hk

theorem forest_reach_le {l : List Nat} (h : Forest l) {i : Nat}
    (hi : i < l.length) (hni : ¬ isRoot l i) :
    ∃ k < l.length, isRoot l ((step l)^[k] (step l i)) := by
  obtain ⟨k, hk, hroot⟩ := (h i hi).2
  cases k with
  | zero =>
    rw [Function.iterate_zero_apply] at hroot
    exact absurd hroot hni
  | succ k' =>
    rw [Function.iterate_succ_apply] at hroot
    exact ⟨k', by omega, hroot⟩

/-! ### The visited chain -/

theorem chainAux_congr {l : List Nat} :
    ∀ (k f f' i : Nat), k < f → k < f' → isRoot l ((step l)^[k] i) →
      chainAux f l i = chainAux f' l i := by
  intro k
  induction k with
  | zero =>
    intro f f' i hf hf' h
    rw [Function.iterate_zero_apply] at h
    have h' : step l i = i := h
    cases f with
    | zero => omega
    | succ f1 =>
      cases f' with
      | zero => omega
      | succ f2 => simp [chainAux, h']
  | succ k ih =>
    intro f f' i hf hf' h
    cases f with
    | zero => omega
    | succ f1 =>
      cases f' with
      | zero => omega
      | succ f2 =>
        by_cases hri : step l i = i
        · simp [chainAux, hri]
        · have h2 : isRoot l ((step l)^[k] (step l i)) := by
            rw [← Function.iterate_succ_apply]; exact h
          simp only [chainAux, hri, if_false]
          rw [ih f1 f2 (step l i) (by omega) (by omega) h2]

theorem chainOf_isRoot {l : List Nat} {i : Nat} (h : isRoot l i) :
    chainOf l i = [i] := by
  have h' : step l i = i := h
  simp [chainOf, chainAux, h']

theorem chainOf_cons {l : List Nat} (h : Forest l) {i : Nat}
    (hi : i < l.length) (hni : ¬ isRoot l i) :
    chainOf l i = i :: chainOf l (step l i) := by
  have h' : ¬ step l i = i := hni
  obtain ⟨k, hk, hroot⟩ := forest_reach_le h hi hni
  unfold chainOf
  cases hn : l.length with
  | zero => omega
  | succ n' =>
    simp only [chainAux, h', if_false]
    rw [hn] at hk
    exact congrArg _ (chainAux_congr k (n' + 1) (n' + 1 + 1) (step l i)
      (by omega) (by omega) hroot)

theorem chain_spec {l : List Nat} (h : Forest l) {i : Nat}
    (hi : i < l.length) :
    (∀ m < (chainOf l i).length, (chainOf l i).getD m 0 = (step l)^[m] i) ∧
    chainOf l i ≠ [] ∧
    (chainOf l i).getD ((chainOf l i).length - 1) 0 = rootOf l i ∧
    (∀ v ∈ chainOf l i, rootOf l v = rootOf l i ∧ v < l.length) ∧
    rootOf l i ∈ chainOf l i := by
  obtain ⟨k, hk, hroot⟩ := (h i hi).2
  clear hk
  induction k using Nat.strong_induction_on generalizing i with
  | _ k ih =>
    by_cases hri : isRoot l i
    · rw [chainOf_isRoot hri, rootOf_isRoot hri]
      refine ⟨?_, by simp, by simp [hri], ?_, by simp⟩
      · intro m hm
        simp only [List.length_singleton] at hm
        have hm0 : m = 0 := by omega
        subst hm0
        simp
      · intro v hv
        simp only [List.mem_singleton] at hv
        subst hv
        exact ⟨rootOf_isRoot hri, hi⟩
    · cases k with
      | zero =>
        rw [Function.iterate_zero_apply] at hroot
        exact absurd hroot hri
      | succ k' =>
        have hstep : step l i < l.length := forest_step_lt h hi
        have hroot' : isRoot l ((step l)^[k'] (step l i)) := by
          rw [← Function.iterate_succ_apply]; exact hroot
        obtain ⟨ha, hb, hc, hd, he⟩ := ih k' (by omega) hstep hroot'
        have hcons := chainOf_cons h hi hri
        have hrstep := rootOf_step h hi hri
        refine ⟨?_, by rw [hcons]; simp, ?_, ?_, ?_⟩
        · intro m hm
          rw [hcons]
          cases m with
          | zero => simp
          | succ m' =>
            rw [hcons] at hm
            simp only [List.length_cons] at hm
            rw [List.getD_cons_succ, ha m' (by omega),
              Function.iterate_succ_apply]
        · rw [hcons]
          simp only [List.length_cons, Nat.add_sub_cancel]
          rcases List.exists_cons_of_ne_nil hb with ⟨v, t, hvt⟩
          rw [hvt] at hc ⊢
          simp only [List.length_cons] at hc ⊢
          rw [List.getD_cons_succ]
          rw [Nat.add_sub_cancel] at hc
          rw [hc, hrstep]
        · intro v hv
          rw [hcons] at hv
          rcases List.mem_cons.mp hv with hv | hv
          · subst hv
            exact ⟨rfl, hi⟩
          · obtain ⟨hv1, hv2⟩ := hd v hv
            exact ⟨by rw [hv1, hrstep], hv2⟩
        · rw [hcons, ← hrstep]
          exact List.mem_cons_of_mem _ he

/-! ### Characterization of `findE` on valid non-negative indices -/

theorem findE_none {l : List Nat} {x : Int} (h : pyIdx l.length x = none)
    (f : Nat) : findE (f + 1) l x = (none, l) := by
  simp [findE, h]

theorem findE_spec {l : List Nat} (h : Forest l) :
    ∀ (f k j : Nat), j < l.length → k < f → isRoot l ((step l)^[k] j) →
      (findE f l (j : Int)).1 = some (rootOf l j) ∧
      (findE f l (j : Int)).2.length = l.length ∧
      (∀ v ∈ chainOf l j, (findE f l (j : Int)).2.getD v 0 = rootOf l j) ∧
      (∀ w, w ∉ chainOf l j → (findE f l (j : Int)).2.getD w 0 = l.getD w 0) := by
  intro f
  induction f with
  | zero => intro k j _ hk _; omega
  | succ f ihf =>
    intro k j hj hk hroot
    have hpy := pyIdx_ofNat hj
    by_cases hri : isRoot l j
    · have hjj : l.getD j 0 = j := hri
      have hc : (j : Int) = ((l.getD j 0 : Nat) : Int) := by rw [hjj]
      have heq : findE (f + 1) l (j : Int) = (some (l.getD j 0), l) := by
        simp only [findE, hpy]
        rw [if_pos hc]
      rw [heq, chainOf_isRoot hri, rootOf_isRoot hri]
      refine ⟨by rw [hjj], rfl, ?_, fun w _ => rfl⟩
      intro v hv
      simp only [List.mem_singleton] at hv
      subst hv
      exact hjj
    · have hc : ¬ ((j : Int) = ((l.getD j 0 : Nat) : Int)) := by
        intro hcc
        have : j = l.getD j 0 := by exact_mod_cast hcc
        exact hri this.symm
      cases k with
      | zero =>
        rw [Function.iterate_zero_apply] at hroot
        exact absurd hroot hri
      | succ k' =>
        have hp : l.getD j 0 < l.length := forest_step_lt h hj
        have hroot2 : isRoot l ((step l)^[k'] (l.getD j 0)) := by
          show isRoot l ((step l)^[k'] (step l j))
          rw [← Function.iterate_succ_apply]
          exact hroot
        obtain ⟨ih1, ih2, ih3, ih4⟩ := ihf k' (l.getD j 0) hp (by omega) hroot2
        have hfe : findE f l ((l.getD j 0 : Nat) : Int) =
            (some (rootOf l (l.getD j 0)), (findE f l ((l.getD j 0 : Nat) : Int)).2) := by
          rw [← ih1]
        have heq : findE (f + 1) l (j : Int) =
            (some (((findE f l ((l.getD j 0 : Nat) : Int)).2.set j
              (rootOf l (l.getD j 0))).getD j 0),
              (findE f l ((l.getD j 0 : Nat) : Int)).2.set j
                (rootOf l (l.getD j 0))) := by
          simp only [findE, hpy]
          rw [if_neg hc, hfe]
        have hr0 : rootOf l (l.getD j 0) = rootOf l j := rootOf_step h hj hri
        have hjlt : j < (findE f l ((l.getD j 0 : Nat) : Int)).2.length := by
          rw [ih2]; exact hj
        have hcons : chainOf l j = j :: chainOf l (l.getD j 0) :=
          chainOf_cons h hj hri
        rw [heq]
        refine ⟨?_, ?_, ?_, ?_⟩
        · rw [getD_set_self hjlt, hr0]
        · rw [List.length_set]; exact ih2
        · intro v hv
          rw [hcons] at hv
          rcases List.mem_cons.mp hv with hv | hv
          · subst hv
            rw [getD_set_self hjlt, hr0]
          · by_cases hvj : v = j
            · subst hvj
              rw [getD_set_self hjlt, hr0]
            · rw [getD_set_ne (fun hh => hvj hh.symm), ih3 v hv, hr0]
        · intro w hw
          rw [hcons] at hw
          have hwj : w ≠ j := fun hh => hw (hh ▸ List.mem_cons_self j _)
          have hwc : w ∉ chainOf l (l.getD j 0) :=
            fun hh => hw (List.mem_cons_of_mem _ hh)
          rw [getD_set_ne (fun hh => hwj hh.symm), ih4 w hwc]

/-! ### Pointwise rewriting preserves the forest and the partition -/

theorem multiwrite_preserves {l l₂ : List Nat} (h : Forest l)
    {S : List Nat} {r : Nat}
    (hlen : l₂.length = l.length)
    (hS : ∀ v ∈ S, rootOf l v = r ∧ v < l.length)
    (hin : ∀ v ∈ S, l₂.getD v 0 = r)
    (hout : ∀ w, w ∉ S → l₂.getD w 0 = l.getD w 0) :
    Forest l₂ ∧ ∀ z < l.length, rootOf l₂ z = rootOf l z := by
  have hfwd : ∀ (m z r' : Nat), (step l)^[m] z = r' → isRoot l r' →
      RootOf l₂ z r' := by
    intro m
    induction m using Nat.strong_induction_on with
    | _ m ihm =>
      intro z r' hm hr'
      by_cases hzS : z ∈ S
      · obtain ⟨hzr, hzlt⟩ := hS z hzS
        have h1 : rootOf l z = r' := rootOf_eq_of h hzlt ⟨⟨m, hm⟩, hr'⟩
        have h2 : r = r' := by rw [← h1, hzr]
        have hrS : isRoot l₂ r' := by
          by_cases hrS' : r' ∈ S
          · show l₂.getD r' 0 = r'
            rw [hin r' hrS', h2]
          · show l₂.getD r' 0 = r'
            rw [hout r' hrS']
            exact hr'
        refine ⟨⟨1, ?_⟩, hrS⟩
        rw [Function.iterate_one]
        show l₂.getD z 0 = r'
        rw [hin z hzS, h2]
      · cases m with
        | zero =>
          rw [Function.iterate_zero_apply] at hm
          subst hm
          refine ⟨⟨0, rfl⟩, ?_⟩
          show l₂.getD z 0 = z
          rw [hout z hzS]
          exact hr'
        | succ m' =>
          rw [Function.iterate_succ_apply] at hm
          obtain ⟨⟨mm, hmm⟩, hrr⟩ := ihm m' (by omega) (step l z) r' hm hr'
          refine ⟨⟨mm + 1, ?_⟩, hrr⟩
          rw [Function.iterate_succ_apply]
          have hstep : step l₂ z = step l z := hout z hzS
          rw [show (step l₂) z = step l₂ z from rfl, hstep]
          exact hmm
  have hcont : ∀ j < l₂.length, l₂.getD j 0 < l₂.length := by
    intro j hjl
    have hjl' : j < l.length := by rw [← hlen]; exact hjl
    rw [hlen]
    by_cases hjS : j ∈ S
    · rw [hin j hjS, ← (hS j hjS).1]
      exact rootOf_lt h (hS j hjS).2
    · rw [hout j hjS]
      exact (h j hjl').1
  have hforest : Forest l₂ := by
    intro i hil
    refine ⟨hcont i hil, ?_⟩
    have hil' : i < l.length := by rw [← hlen]; exact hil
    obtain ⟨⟨m, hm⟩, hr⟩ := rootOf_spec h hil'
    obtain ⟨⟨mm, hmm⟩, hrr⟩ := hfwd m i _ hm hr
    exact reach_bound hcont hil ⟨mm, by rw [hmm]; exact hrr⟩
  refine ⟨hforest, ?_⟩
  intro z hz
  obtain ⟨⟨m, hm⟩, hr⟩ := rootOf_spec h hz
  exact rootOf_eq_of hforest (by rw [hlen]; exact hz) (hfwd m z _ hm hr)

theorem findE_preserves_nat {l : List Nat} (h : Forest l) {j : Nat}
    (hj : j < l.length) {f k : Nat} (hk : k < f)
    (hroot : isRoot l ((step l)^[k] j)) :
    Forest (findE f l (j : Int)).2 ∧
    ∀ z < l.length, rootOf ((findE f l (j : Int)).2) z = rootOf l z := by
  obtain ⟨_, h2, h3, h4⟩ := findE_spec h f k j hj hk hroot
  exact multiwrite_preserves h h2
    (fun v hv => (chain_spec h hj).2.2.2.1 v hv) h3 h4

theorem setCompressPreserves {l : List Nat} (h : Forest l) {i : Nat}
    (hi : i < l.length) :
    Forest (l.set i (rootOf l i)) ∧
    ∀ z < l.length, rootOf (l.set i (rootOf l i)) z = rootOf l z := by
  refine multiwrite_preserves (S := [i]) (r := rootOf l i) h
    (List.length_set _ _ _) ?_ ?_ ?_
  · intro v hv
    simp only [List.mem_singleton] at hv
    subst hv
    exact ⟨rfl, hi⟩
  · intro v hv
    simp only [List.mem_singleton] at hv
    subst hv
    exact getD_set_self hi
  · intro w hw
    simp only [List.mem_singleton] at hw
    exact getD_set_ne (fun hh => hw hh.symm)

/-! ### Attaching one root under another (the merge step of `union`) -/

theorem attach_spec {l : List Nat} (h : Forest l) {a b : Nat}
    (ha : a < l.length) (hb : b < l.length)
    (hra : isRoot l a) (hrb : isRoot l b) (hab : a ≠ b) :
    Forest (l.set a b) ∧
    ∀ z < l.length, rootOf (l.set a b) z =
      if rootOf l z = a then b else rootOf l z := by
  have hfwd : ∀ (m z r' : Nat), (step l)^[m] z = r' → isRoot l r' →
      RootOf (l.set a b) z (if r' = a then b else r') := by
    intro m
    induction m using Nat.strong_induction_on with
    | _ m ihm =>
      intro z r' hm hr'
      by_cases hza : z = a
      · have hr'a : r' = a := by
          rw [← hm, hza, iterate_fixed_root hra m]
        rw [hr'a, if_pos rfl, hza]
        refine ⟨⟨1, ?_⟩, ?_⟩
        · rw [Function.iterate_one]
          exact getD_set_self ha
        · show (l.set a b).getD b 0 = b
          rw [getD_set_ne hab]
          exact hrb
      · cases m with
        | zero =>
          rw [Function.iterate_zero_apply] at hm
          subst hm
          rw [if_neg hza]
          refine ⟨⟨0, rfl⟩, ?_⟩
          show (l.set a b).getD z 0 = z
          rw [getD_set_ne (fun hh => hza hh.symm)]
          exact hr'
        | succ m' =>
          rw [Function.iterate_succ_apply] at hm
          obtain ⟨⟨mm, hmm⟩, hrr⟩ := ihm m' (by omega) (step l z) r' hm hr'
          refine ⟨⟨mm + 1, ?_⟩, hrr⟩
          rw [Function.iterate_succ_apply]
          have hstep : step (l.set a b) z = step l z :=
            getD_set_ne (fun hh => hza hh.symm)
          rw [show (step (l.set a b)) z = step (l.set a b) z from rfl, hstep]
          exact hmm
  have hlen : (l.set a b).length = l.length := List.length_set _ _ _
  have hcont : ∀ j < (l.set a b).length,
      (l.set a b).getD j 0 < (l.set a b).length := by
    intro j hjl
    have hjl' : j < l.length := by rw [← hlen]; exact hjl
    rw [hlen]
    by_cases hja : j = a
    · subst hja
      rw [getD_set_self ha]
      exact hb
    · rw [getD_set_ne (fun hh => hja hh.symm)]
      exact (h j hjl').1
  have hforest : Forest (l.set a b) := by
    intro i hil
    refine ⟨hcont i hil, ?_⟩
    have hil' : i < l.length := by rw [← hlen]; exact hil
    obtain ⟨⟨m, hm⟩, hr⟩ := rootOf_spec h hil'
    obtain ⟨⟨mm, hmm⟩, hrr⟩ := hfwd m i _ hm hr
    exact reach_bound hcont hil ⟨mm, by rw [hmm]; exact hrr⟩
  refine ⟨hforest, ?_⟩
  intro z hz
  obtain ⟨⟨m, hm⟩, hr⟩ := rootOf_spec h hz
  exact rootOf_eq_of hforest (by rw [hlen]; exact hz) (hfwd m z _ hm hr)

/-! ### `findE` with the standard fuel on any `pyIdx`-valid index -/

theorem findE_ok {l : List Nat} (h : Forest l) {x : Int} {i : Nat}
    (hpy : pyIdx l.length x = some i) :
    (findE (l.length + 1) l x).1 = some (rootOf l i) ∧
    (findE (l.length + 1) l x).2.length = l.length ∧
    Forest (findE (l.length + 1) l x).2 ∧
    (∀ z < l.length, rootOf ((findE (l.length + 1) l x).2) z = rootOf l z) := by
  have hi : i < l.length := pyIdx_some_lt hpy
  obtain ⟨k, hk, hroot⟩ := (h i hi).2
  by_cases hx0 : 0 ≤ x
  · -- non-negative index: x literally is the natural number i
    have hxi : x = (i : Int) := by
      unfold pyIdx at hpy
      rw [if_pos hx0] at hpy
      by_cases hlt : x < (l.length : Int)
      · rw [if_pos hlt] at hpy
        simp only [Option.some_inj] at hpy
        omega
      · rw [if_neg hlt] at hpy
        exact absurd hpy (by simp)
    subst hxi
    obtain ⟨h1, h2, h3, h4⟩ := findE_spec h (l.length + 1) k i hi (by omega) hroot
    obtain ⟨h5, h6⟩ := findE_preserves_nat h hi (f := l.length + 1) (k := k)
      (by omega) hroot
    exact ⟨h1, h2, h5, h6⟩
  · -- negative index: the first access normalizes to entry i = length + x
    push_neg at hx0
    have hc : ¬ (x = ((l.getD i 0 : Nat) : Int)) := by
      intro hcc
      have : (0 : Int) ≤ x := by rw [hcc]; exact Int.ofNat_nonneg _
      omega
    have hn1 : 1 ≤ l.length := by omega
    -- a root of the chain starting at parent[i] is reached in < length steps
    have hreach : ∃ k' < l.length, isRoot l ((step l)^[k'] (l.getD i 0)) := by
      by_cases hri : isRoot l i
      · refine ⟨0, by omega, ?_⟩
        rw [Function.iterate_zero_apply]
        have hii : l.getD i 0 = i := hri
        rw [hii]
        exact hri
      · obtain ⟨k', hk', hroot'⟩ := forest_reach_le h hi hri
        exact ⟨k', hk', hroot'⟩
    obtain ⟨k', hk', hroot'⟩ := hreach
    obtain ⟨g1, g2, g3, g4⟩ := findE_spec h l.length k' (l.getD i 0)
      (forest_step_lt h hi) hk' hroot'
    obtain ⟨g5, g6⟩ := findE_preserves_nat h (j := l.getD i 0)
      (show l.getD i 0 < l.length from forest_step_lt h hi)
      (f := l.length) (k := k') hk' hroot'
    have hfe : findE l.length l ((l.getD i 0 : Nat) : Int) =
        (some (rootOf l (l.getD i 0)),
          (findE l.length l ((l.getD i 0 : Nat) : Int)).2) := by
      rw [← g1]
    have heq : findE (l.length + 1) l x =
        (some (((findE l.length l ((l.getD i 0 : Nat) : Int)).2.set i
          (rootOf l (l.getD i 0))).getD i 0),
          (findE l.length l ((l.getD i 0 : Nat) : Int)).2.set i
            (rootOf l (l.getD i 0))) := by
      simp only [findE, hpy]
      rw [if_neg hc, hfe]
    -- the root returned is the root of element i
    have hr0 : rootOf l (l.getD i 0) = rootOf l i := by
      by_cases hri : isRoot l i
      · have hii : l.getD i 0 = i := hri
        rw [hii]
      · exact rootOf_step h hi hri
    rw [hr0] at heq
    have hilt : i < (findE l.length l ((l.getD i 0 : Nat) : Int)).2.length := by
      rw [g2]; exact hi
    -- the final write is a compression write: set i to the root of i
    have hset := setCompressPreserves (l := (findE l.length l ((l.getD i 0 : Nat) : Int)).2)
      g5 (i := i) hilt
    have hri2 : rootOf ((findE l.length l ((l.getD i 0 : Nat) : Int)).2) i
        = rootOf l i := g6 i hi
    rw [hri2] at hset
    refine ⟨?_, ?_, ?_, ?_⟩
    · rw [heq]
      simp only
      rw [getD_set_self hilt]
    · rw [heq]
      simp only
      rw [List.length_set]
      exact g2
    · rw [heq]
      exact hset.1
    · intro z hz
      rw [heq]
      simp only
      have hz2 : z < (findE l.length l ((l.getD i 0 : Nat) : Int)).2.length := by
        rw [g2]; exact hz
      rw [hset.2 z hz2, g6 z hz]

/-! ### State effect of one `find` call, on any argument -/

theorem find_state {l : List Nat} (h : Forest l) (x : Int) :
    Forest (findE (l.length + 1) l x).2 ∧
    (findE (l.length + 1) l x).2.length = l.length ∧
    (∀ z < l.length, rootOf ((findE (l.length + 1) l x).2) z = rootOf l z) := by
  cases hpy : pyIdx l.length x with
  | none =>
    rw [findE_none hpy]
    exact ⟨h, rfl, fun z _ => rfl⟩
  | some i =>
    obtain ⟨_, h2, h3, h4⟩ := findE_ok h hpy
    exact ⟨h3, h2, h4⟩

theorem find_some_inv {l : List Nat} (h : Forest l) {x : Int} {r : Nat}
    (hr : (findE (l.length + 1) l x).1 = some r) :
    ∃ i, pyIdx l.length x = some i ∧ r = rootOf l i := by
  cases hpy : pyIdx l.length x with
  | none =>
    rw [findE_none hpy] at hr
    exact absurd hr (by simp)
  | some i =>
    obtain ⟨h1, _, _, _⟩ := findE_ok h hpy
    rw [h1] at hr
    exact ⟨i, rfl, (Option.some_inj.mp hr).symm⟩

/-! ### Reduction equations for `connE` -/

theorem connE_eq_err1 {l : List Nat} {x y : Int} {l1 : List Nat}
    (h1 : findE (l.length + 1) l x = (none, l1)) :
    connE l x y = (none, l1) := by
  unfold connE
  rw [h1]

theorem connE_eq_err2 {l : List Nat} {x y : Int} {rx : Nat} {l1 l2 : List Nat}
    (h1 : findE (l.length + 1) l x = (some rx, l1))
    (h2 : findE (l1.length + 1) l1 y = (none, l2)) :
    connE l x y = (none, l2) := by
  simp only [connE, h1, h2]

theorem connE_eq_ok {l : List Nat} {x y : Int} {rx ry : Nat} {l1 l2 : List Nat}
    (h1 : findE (l.length + 1) l x = (some rx, l1))
    (h2 : findE (l1.length + 1) l1 y = (some ry, l2)) :
    connE l x y = (some (decide (rx = ry)), l2) := by
  simp only [connE, h1, h2]

/-! ### State effect and result of one `is_connected` call -/

theorem conn_state {l : List Nat} (h : Forest l) (x y : Int) :
    Forest (connE l x y).2 ∧
    (connE l x y).2.length = l.length ∧
    (∀ z < l.length, rootOf ((connE l x y).2) z = rootOf l z) := by
  obtain ⟨hf1, hl1, hr1⟩ := find_state h x
  rcases hfx : (findE (l.length + 1) l x).1 with _ | rx
  · have e1 : findE (l.length + 1) l x = (none, (findE (l.length + 1) l x).2) := by
      rw [← hfx]
    rw [connE_eq_err1 e1]
    exact ⟨hf1, hl1, hr1⟩
  · have e1 : findE (l.length + 1) l x =
        (some rx, (findE (l.length + 1) l x).2) := by rw [← hfx]
    obtain ⟨hf2, hl2, hr2⟩ := find_state hf1 y
    rcases hfy : (findE ((findE (l.length + 1) l x).2.length + 1)
        (findE (l.length + 1) l x).2 y).1 with _ | ry
    · have e2 : findE ((findE (l.length + 1) l x).2.length + 1)
          (findE (l.length + 1) l x).2 y =
          (none, (findE ((findE (l.length + 1) l x).2.length + 1)
            (findE (l.length + 1) l x).2 y).2) := by rw [← hfy]
      rw [connE_eq_err2 e1 e2]
      refine ⟨hf2, by rw [hl2, hl1], ?_⟩
      intro z hz
      rw [hr2 z (by rw [hl1]; exact hz), hr1 z hz]
    · have e2 : findE ((findE (l.length + 1) l x).2.length + 1)
          (findE (l.length + 1) l x).2 y =
          (some ry, (findE ((findE (l.length + 1) l x).2.length + 1)
            (findE (l.length + 1) l x).2 y).2) := by rw [← hfy]
      rw [connE_eq_ok e1 e2]
      refine ⟨hf2, by rw [hl2, hl1], ?_⟩
      intro z hz
      rw [hr2 z (by rw [hl1]; exact hz), hr1 z hz]

theorem conn_result {l : List Nat} (h : Forest l) {x y : Int} {i j : Nat}
    (hx : pyIdx l.length x = some i) (hy : pyIdx l.length y = some j) :
    (connE l x y).1 = some (decide (rootOf l i = rootOf l j)) := by
  obtain ⟨h1, h2, h3, h4⟩ := findE_ok h hx
  have e1 : findE (l.length + 1) l x =
      (some (rootOf l i), (findE (l.length + 1) l x).2) := by rw [← h1]
  have hy' : pyIdx ((findE (l.length + 1) l x).2).length y = some j := by
    rw [h2]; exact hy
  obtain ⟨g1, g2, g3, g4⟩ := findE_ok h3 hy'
  have e2 : findE ((findE (l.length + 1) l x).2.length + 1)
      (findE (l.length + 1) l x).2 y =
      (some (rootOf ((findE (l.length + 1) l x).2) j),
        (findE ((findE (l.length + 1) l x).2.length + 1)
          (findE (l.length + 1) l x).2 y).2) := by rw [← g1]
  rw [connE_eq_ok e1 e2, h4 j (pyIdx_some_lt hy)]

namespace ByRank

/-- Well-formedness of a rank-variant state: the parent array is a
forest and the two arrays have equal length (as after `__init__`). -/
def WF (s : DisjointSet) : Prop :=
  Forest s.parent ∧ s.rank.length = s.parent.length

instance (s : DisjointSet) : Decidable (WF s) :=
  inferInstanceAs (Decidable (_ ∧ _))

theorem find_def (s : DisjointSet) (x : Int) :
    find s x = ((findE (s.parent.length + 1) s.parent x).1,
      ⟨(findE (s.parent.length + 1) s.parent x).2, s.rank⟩) := rfl

theorem is_connected_def (s : DisjointSet) (x y : Int) :
    is_connected s x y = ((connE s.parent x y).1,
      ⟨(connE s.parent x y).2, s.rank⟩) := rfl

theorem union_eq {s : DisjointSet} {x y : Int} {rx : Nat} {s1 : DisjointSet}
    (h1 : find s x = (some rx, s1)) {ry : Nat} {s2 : DisjointSet}
    (h2 : find s1 y = (some ry, s2)) :
    union s x y =
      if rx = ry then (some false, s2)
      else if s2.rank.getD rx 0 < s2.rank.getD ry 0 then
        (some true, ⟨s2.parent.set rx ry, s2.rank⟩)
      else if s2.rank.getD ry 0 < s2.rank.getD rx 0 then
        (some true, ⟨s2.parent.set ry rx, s2.rank⟩)
      else
        (some true, ⟨s2.parent.set ry rx,
          s2.rank.set rx (s2.rank.getD rx 0 + 1)⟩) := by
  simp only [union, h1, h2]

theorem union_eq_err1 {s : DisjointSet} {x y : Int} {s1 : DisjointSet}
    (h1 : find s x = (none, s1)) : union s x y = (none, s1) := by
  simp only [union, h1]

theorem union_eq_err2 {s : DisjointSet} {x y : Int} {rx : Nat}
    {s1 s2 : DisjointSet} (h1 : find s x = (some rx, s1))
    (h2 : find s1 y = (none, s2)) : union s x y = (none, s2) := by
  simp only [union, h1, h2]

theorem find_effect (s : DisjointSet) (x : Int) (h : WF s) :
    WF (find s x).2 ∧ (find s x).2.parent.length = s.parent.length ∧
    (find s x).2.rank = s.rank ∧
    ∀ z < s.parent.length,
      rootOf (find s x).2.parent z = rootOf s.parent z := by
  obtain ⟨hf, hl, hr⟩ := find_state h.1 x
  rw [find_def]
  exact ⟨⟨hf, by rw [h.2, hl]⟩, hl, rfl, hr⟩

theorem conn_effect (s : DisjointSet) (x y : Int) (h : WF s) :
    WF (is_connected s x y).2 ∧
    (is_connected s x y).2.parent.length = s.parent.length ∧
    (is_connected s x y).2.rank = s.rank ∧
    ∀ z < s.parent.length,
      rootOf (is_connected s x y).2.parent z = rootOf s.parent z := by
  obtain ⟨hf, hl, hr⟩ := conn_state h.1 x y
  rw [is_connected_def]
  exact ⟨⟨hf, by rw [h.2, hl]⟩, hl, rfl, hr⟩

end ByRank

namespace ByRank

theorem union_spec (s : DisjointSet) (x y : Int) (h : WF s)
    {i j : Nat} (hx : pyIdx s.parent.length x = some i)
    (hy : pyIdx s.parent.length y = some j) :
    WF (union s x y).2 ∧
    (union s x y).2.parent.length = s.parent.length ∧
    (union s x y).1 = some (decide (¬ rootOf s.parent i = rootOf s.parent j)) ∧
    ∃ w, (w = rootOf s.parent i ∨ w = rootOf s.parent j) ∧
      ∀ z < s.parent.length, rootOf (union s x y).2.parent z =
        if rootOf s.parent z = rootOf s.parent i ∨
            rootOf s.parent z = rootOf s.parent j
          then w else rootOf s.parent z := by
  obtain ⟨hF, hRL⟩ := h
  have hi : i < s.parent.length := pyIdx_some_lt hx
  have hj : j < s.parent.length := pyIdx_some_lt hy
  obtain ⟨f1, f2, f3, f4⟩ := findE_ok hF hx
  have e1 : find s x = (some (rootOf s.parent i),
      ⟨(findE (s.parent.length + 1) s.parent x).2, s.rank⟩) := by
    rw [find_def, f1]
  set L1 := (findE (s.parent.length + 1) s.parent x).2 with hL1def
  have hy1 : pyIdx L1.length y = some j := by rw [f2]; exact hy
  obtain ⟨g1, g2, g3, g4⟩ := findE_ok f3 hy1
  have hrootj : rootOf L1 j = rootOf s.parent j := f4 j hj
  have e2 : find (⟨L1, s.rank⟩ : DisjointSet) y = (some (rootOf s.parent j),
      ⟨(findE (L1.length + 1) L1 y).2, s.rank⟩) := by
    rw [find_def]
    dsimp only
    rw [g1, hrootj]
  set L2 := (findE (L1.length + 1) L1 y).2 with hL2def
  have hlen2 : L2.length = s.parent.length := by rw [g2, f2]
  have hroots2 : ∀ z < s.parent.length, rootOf L2 z = rootOf s.parent z := by
    intro z hz
    rw [g4 z (by rw [f2]; exact hz), f4 z hz]
  have hrx_lt : rootOf s.parent i < s.parent.length := rootOf_lt hF hi
  have hry_lt : rootOf s.parent j < s.parent.length := rootOf_lt hF hj
  have hrkL2 : s.rank.length = L2.length := by rw [hRL, hlen2]
  rw [union_eq e1 e2]
  dsimp only
  by_cases hrxy : rootOf s.parent i = rootOf s.parent j
  · rw [if_pos hrxy]
    refine ⟨⟨g3, hrkL2⟩, hlen2, by simp [hrxy], ?_⟩
    refine ⟨rootOf s.parent i, Or.inl rfl, ?_⟩
    intro z hz
    rw [hroots2 z hz]
    by_cases hc : rootOf s.parent z = rootOf s.parent i ∨
        rootOf s.parent z = rootOf s.parent j
    · rw [if_pos hc]
      rcases hc with hc | hc
      · exact hc
      · rw [hc, hrxy]
    · rw [if_neg hc]
  · have hrootx2 : isRoot L2 (rootOf s.parent i) := by
      have hri : rootOf L2 i = rootOf s.parent i := hroots2 i hi
      rw [← hri]
      exact isRoot_rootOf g3 (by rw [hlen2]; exact hi)
    have hrooty2 : isRoot L2 (rootOf s.parent j) := by
      have hrj : rootOf L2 j = rootOf s.parent j := hroots2 j hj
      rw [← hrj]
      exact isRoot_rootOf g3 (by rw [hlen2]; exact hj)
    have hrx_lt2 : rootOf s.parent i < L2.length := by rw [hlen2]; exact hrx_lt
    have hry_lt2 : rootOf s.parent j < L2.length := by rw [hlen2]; exact hry_lt
    rw [if_neg hrxy]
    by_cases hlt1 : s.rank.getD (rootOf s.parent i) 0 <
        s.rank.getD (rootOf s.parent j) 0
    · rw [if_pos hlt1]
      obtain ⟨aF, aR⟩ := attach_spec g3 hrx_lt2 hry_lt2 hrootx2 hrooty2 hrxy
      refine ⟨⟨aF, by rw [hrkL2, List.length_set]⟩,
        by rw [List.length_set]; exact hlen2, by simp [hrxy], ?_⟩
      refine ⟨rootOf s.parent j, Or.inr rfl, ?_⟩
      intro z hz
      rw [aR z (by rw [hlen2]; exact hz), hroots2 z hz]
      by_cases hc1 : rootOf s.parent z = rootOf s.parent i
      · rw [if_pos hc1, if_pos (Or.inl hc1)]
      · rw [if_neg hc1]
        by_cases hc2 : rootOf s.parent z = rootOf s.parent j
        · rw [if_pos (Or.inr hc2)]
          exact hc2
        · rw [if_neg (fun hc => by rcases hc with hc | hc <;> [exact hc1 hc; exact hc2 hc])]
    · rw [if_neg hlt1]
      have hmerge : ∀ hrk : List Nat, hrk.length = L2.length →
          Forest (L2.set (rootOf s.parent j) (rootOf s.parent i)) ∧
          (∀ z < s.parent.length,
            rootOf (L2.set (rootOf s.parent j) (rootOf s.parent i)) z =
            if rootOf s.parent z = rootOf s.parent i ∨
                rootOf s.parent z = rootOf s.parent j
              then rootOf s.parent i else rootOf s.parent z) := by
        intro _ _
        obtain ⟨aF, aR⟩ := attach_spec g3 hry_lt2 hrx_lt2 hrooty2 hrootx2
          (fun hh => hrxy hh.symm)
        refine ⟨aF, ?_⟩
        intro z hz
        rw [aR z (by rw [hlen2]; exact hz), hroots2 z hz]
        by_cases hc2 : rootOf s.parent z = rootOf s.parent j
        · rw [if_pos hc2, if_pos (Or.inr hc2)]
        · rw [if_neg hc2]
          by_cases hc1 : rootOf s.parent z = rootOf s.parent i
          · rw [if_pos (Or.inl hc1)]
            exact hc1
          · rw [if_neg (fun hc => by rcases hc with hc | hc <;> [exact hc1 hc; exact hc2 hc])]
      by_cases hlt2 : s.rank.getD (rootOf s.parent j) 0 <
          s.rank.getD (rootOf s.parent i) 0
      · rw [if_pos hlt2]
        obtain ⟨aF, aR⟩ := hmerge s.rank hrkL2
        exact ⟨⟨aF, by rw [hrkL2, List.length_set]⟩,
          by rw [List.length_set]; exact hlen2, by simp [hrxy],
          rootOf s.parent i, Or.inl rfl, aR⟩
      · rw [if_neg hlt2]
        obtain ⟨aF, aR⟩ := hmerge s.rank hrkL2
        refine ⟨⟨aF, by rw [List.length_set, hrkL2, List.length_set]⟩,
          by rw [List.length_set]; exact hlen2, by simp [hrxy],
          rootOf s.parent i, Or.inl rfl, aR⟩

end ByRank

theorem getD_range {n i : Nat} (h : i < n) : (List.range n).getD i 0 = i := by
  rw [List.getD_eq_getElem?_getD, List.getElem?_range h]
  rfl

theorem forest_range (n : Nat) : Forest (List.range n) := by
  intro i hi
  rw [List.length_range] at hi
  have hg : (List.range n).getD i 0 = i := getD_range hi
  refine ⟨by rw [hg, List.length_range]; exact hi, 0, by omega, ?_⟩
  rw [Function.iterate_zero_apply]
  exact hg

theorem rootOf_range {n i : Nat} (h : i < n) : rootOf (List.range n) i = i :=
  rootOf_isRoot (getD_range h)

namespace ByRank

theorem init_WF (n : Nat) :
    WF (init n) ∧ (init n).parent.length = n ∧ (init n).rank.length = n := by
  refine ⟨⟨forest_range n, by simp [init]⟩, by simp [init], by simp [init]⟩

theorem applyOp_spec (s : DisjointSet) (o : Op) (h : WF s) :
    WF (applyOp s o) ∧ (applyOp s o).parent.length = s.parent.length ∧
    ∀ a b, a < s.parent.length → b < s.parent.length →
      sameSetL s.parent a b → sameSetL (applyOp s o).parent a b := by
  cases o with
  | find x =>
    rw [show applyOp s (Op.find x) = (find s x).2 from rfl]
    obtain ⟨h1, h2, _, h4⟩ := find_effect s x h
    refine ⟨h1, h2, ?_⟩
    intro a b ha hb hs
    unfold sameSetL at hs ⊢
    rw [h4 a ha, h4 b hb]
    exact hs
  | conn x y =>
    rw [show applyOp s (Op.conn x y) = (is_connected s x y).2 from rfl]
    obtain ⟨h1, h2, _, h4⟩ := conn_effect s x y h
    refine ⟨h1, h2, ?_⟩
    intro a b ha hb hs
    unfold sameSetL at hs ⊢
    rw [h4 a ha, h4 b hb]
    exact hs
  | union x y =>
    rw [show applyOp s (Op.union x y) = (union s x y).2 from rfl]
    rcases hfx : (find s x).1 with _ | rx
    · have e1 : find s x = (none, (find s x).2) := by rw [← hfx]
      rw [union_eq_err1 e1]
      obtain ⟨h1, h2, _, h4⟩ := find_effect s x h
      refine ⟨h1, h2, ?_⟩
      intro a b ha hb hs
      unfold sameSetL at hs ⊢
      rw [h4 a ha, h4 b hb]
      exact hs
    · rcases hfy : (find (find s x).2 y).1 with _ | ry
      · have e1 : find s x = (some rx, (find s x).2) := by rw [← hfx]
        have e2 : find (find s x).2 y = (none, (find (find s x).2 y).2) := by
          rw [← hfy]
        rw [union_eq_err2 e1 e2]
        obtain ⟨h1, h2, _, h4⟩ := find_effect s x h
        obtain ⟨g1, g2, _, g4⟩ := find_effect (find s x).2 y h1
        refine ⟨g1, by rw [g2, h2], ?_⟩
        intro a b ha hb hs
        unfold sameSetL at hs ⊢
        rw [g4 a (by rw [h2]; exact ha), g4 b (by rw [h2]; exact hb),
          h4 a ha, h4 b hb]
        exact hs
      · have hfx' : (findE (s.parent.length + 1) s.parent x).1 = some rx := hfx
        obtain ⟨i, hpyx, _⟩ := find_some_inv h.1 hfx'
        have hfy' : (findE ((find s x).2.parent.length + 1)
            (find s x).2.parent y).1 = some ry := hfy
        obtain ⟨h1, h2, _, _⟩ := find_effect s x h
        obtain ⟨j, hpyj, _⟩ := find_some_inv h1.1 hfy'
        rw [h2] at hpyj
        obtain ⟨u1, u2, _, w, _, hw⟩ := union_spec s x y h hpyx hpyj
        refine ⟨u1, u2, ?_⟩
        intro a b ha hb hs
        unfold sameSetL at hs ⊢
        rw [hw a ha, hw b hb, hs]

theorem exec_spec (ops : List Op) (s : DisjointSet) (h : WF s) :
    WF (exec s ops) ∧ (exec s ops).parent.length = s.parent.length ∧
    ∀ a b, a < s.parent.length → b < s.parent.length →
      sameSetL s.parent a b → sameSetL (exec s ops).parent a b := by
  induction ops generalizing s with
  | nil => exact ⟨h, rfl, fun a b _ _ hs => hs⟩
  | cons o t ih =>
    have hstep := applyOp_spec s o h
    have hrest := ih (applyOp s o) hstep.1
    have hcons : exec s (o :: t) = exec (applyOp s o) t := rfl
    refine ⟨by rw [hcons]; exact hrest.1,
      by rw [hcons, hrest.2.1, hstep.2.1], ?_⟩
    intro a b ha hb hs
    rw [hcons]
    exact hrest.2.2 a b (by rw [hstep.2.1]; exact ha)
      (by rw [hstep.2.1]; exact hb) (hstep.2.2 a b ha hb hs)

theorem Reachable_spec {n : Nat} {s : DisjointSet} (h : Reachable n s) :
    WF s ∧ s.parent.length = n := by
  obtain ⟨ops, rfl⟩ := h
  obtain ⟨h0, hp, _⟩ := init_WF n
  have he := exec_spec ops (init n) h0
  exact ⟨he.1, by rw [he.2.1, hp]⟩

end ByRank

namespace BySize

/-- Well-formedness of a size-variant state: the parent array is a
forest and the two arrays have equal length (as after `__init__`). -/
def WF (s : DisjointSet) : Prop :=
  Forest s.parent ∧ s.size.length = s.parent.length

instance (s : DisjointSet) : Decidable (WF s) :=
  inferInstanceAs (Decidable (_ ∧ _))

theorem find_defS (s : DisjointSet) (x : Int) :
    find s x = ((findE (s.parent.length + 1) s.parent x).1,
      ⟨(findE (s.parent.length + 1) s.parent x).2, s.size⟩) := rfl

theorem is_connected_defS (s : DisjointSet) (x y : Int) :
    is_connected s x y = ((connE s.parent x y).1,
      ⟨(connE s.parent x y).2, s.size⟩) := rfl

theorem union_eqS {s : DisjointSet} {x y : Int} {rx : Nat} {s1 : DisjointSet}
    (h1 : find s x = (some rx, s1)) {ry : Nat} {s2 : DisjointSet}
    (h2 : find s1 y = (some ry, s2)) :
    union s x y =
      if rx = ry then (some false, s2)
      else if s2.size.getD rx 0 < s2.size.getD ry 0 then
        (some true, ⟨s2.parent.set rx ry,
          s2.size.set ry (s2.size.getD ry 0 + s2.size.getD rx 0)⟩)
      else
        (some true, ⟨s2.parent.set ry rx,
          s2.size.set rx (s2.size.getD rx 0 + s2.size.getD ry 0)⟩) := by
  simp only [union, h1, h2]

theorem union_eq_err1S {s : DisjointSet} {x y : Int} {s1 : DisjointSet}
    (h1 : find s x = (none, s1)) : union s x y = (none, s1) := by
  simp only [union, h1]

theorem union_eq_err2S {s : DisjointSet} {x y : Int} {rx : Nat}
    {s1 s2 : DisjointSet} (h1 : find s x = (some rx, s1))
    (h2 : find s1 y = (none, s2)) : union s x y = (none, s2) := by
  simp only [union, h1, h2]

theorem find_effectS (s : DisjointSet) (x : Int) (h : WF s) :
    WF (find s x).2 ∧ (find s x).2.parent.length = s.parent.length ∧
    (find s x).2.size = s.size ∧
    ∀ z < s.parent.length,
      rootOf (find s x).2.parent z = rootOf s.parent z := by
  obtain ⟨hf, hl, hr⟩ := find_state h.1 x
  rw [find_defS]
  exact ⟨⟨hf, by rw [h.2, hl]⟩, hl, rfl, hr⟩

theorem conn_effectS (s : DisjointSet) (x y : Int) (h : WF s) :
    WF (is_connected s x y).2 ∧
    (is_connected s x y).2.parent.length = s.parent.length ∧
    (is_connected s x y).2.size = s.size ∧
    ∀ z < s.parent.length,
      rootOf (is_connected s x y).2.parent z = rootOf s.parent z := by
  obtain ⟨hf, hl, hr⟩ := conn_state h.1 x y
  rw [is_connected_defS]
  exact ⟨⟨hf, by rw [h.2, hl]⟩, hl, rfl, hr⟩

theorem union_specS (s : DisjointSet) (x y : Int) (h : WF s)
    {i j : Nat} (hx : pyIdx s.parent.length x = some i)
    (hy : pyIdx s.parent.length y = some j) :
    WF (union s x y).2 ∧
    (union s x y).2.parent.length = s.parent.length ∧
    (union s x y).1 = some (decide (¬ rootOf s.parent i = rootOf s.parent j)) ∧
    ∃ w, (w = rootOf s.parent i ∨ w = rootOf s.parent j) ∧
      ∀ z < s.parent.length, rootOf (union s x y).2.parent z =
        if rootOf s.parent z = rootOf s.parent i ∨
            rootOf s.parent z = rootOf s.parent j
          then w else rootOf s.parent z := by
  obtain ⟨hF, hRL⟩ := h
  have hi : i < s.parent.length := pyIdx_some_lt hx
  have hj : j < s.parent.length := pyIdx_some_lt hy
  obtain ⟨f1, f2, f3, f4⟩ := findE_ok hF hx
  have e1 : find s x = (some (rootOf s.parent i),
      ⟨(findE (s.parent.length + 1) s.parent x).2, s.size⟩) := by
    rw [find_defS, f1]
  set L1 := (findE (s.parent.length + 1) s.parent x).2 with hL1def
  have hy1 : pyIdx L1.length y = some j := by rw [f2]; exact hy
  obtain ⟨g1, g2, g3, g4⟩ := findE_ok f3 hy1
  have hrootj : rootOf L1 j = rootOf s.parent j := f4 j hj
  have e2 : find (⟨L1, s.size⟩ : DisjointSet) y = (some (rootOf s.parent j),
      ⟨(findE (L1.length + 1) L1 y).2, s.size⟩) := by
    rw [find_defS]
    dsimp only
    rw [g1, hrootj]
  set L2 := (findE (L1.length + 1) L1 y).2 with hL2def
  have hlen2 : L2.length = s.parent.length := by rw [g2, f2]
  have hroots2 : ∀ z < s.parent.length, rootOf L2 z = rootOf s.parent z := by
    intro z hz
    rw [g4 z (by rw [f2]; exact hz), f4 z hz]
  have hrx_lt : rootOf s.parent i < s.parent.length := rootOf_lt hF hi
  have hry_lt : rootOf s.parent j < s.parent.length := rootOf_lt hF hj
  have hrkL2 : s.size.length = L2.length := by rw [hRL, hlen2]
  rw [union_eqS e1 e2]
  dsimp only
  by_cases hrxy : rootOf s.parent i = rootOf s.parent j
  · rw [if_pos hrxy]
    refine ⟨⟨g3, hrkL2⟩, hlen2, by simp [hrxy], ?_⟩
    refine ⟨rootOf s.parent i, Or.inl rfl, ?_⟩
    intro z hz
    rw [hroots2 z hz]
    by_cases hc : rootOf s.parent z = rootOf s.parent i ∨
        rootOf s.parent z = rootOf s.parent j
    · rw [if_pos hc]
      rcases hc with hc | hc
      · exact hc
      · rw [hc, hrxy]
    · rw [if_neg hc]
  · have hrootx2 : isRoot L2 (rootOf s.parent i) := by
      have hri : rootOf L2 i = rootOf s.parent i := hroots2 i hi
      rw [← hri]
      exact isRoot_rootOf g3 (by rw [hlen2]; exact hi)
    have hrooty2 : isRoot L2 (rootOf s.parent j) := by
      have hrj : rootOf L2 j = rootOf s.parent j := hroots2 j hj
      rw [← hrj]
      exact isRoot_rootOf g3 (by rw [hlen2]; exact hj)
    have hrx_lt2 : rootOf s.parent i < L2.length := by rw [hlen2]; exact hrx_lt
    have hry_lt2 : rootOf s.parent j < L2.length := by rw [hlen2]; exact hry_lt
    rw [if_neg hrxy]
    by_cases hlt1 : s.size.getD (rootOf s.parent i) 0 <
        s.size.getD (rootOf s.parent j) 0
    · rw [if_pos hlt1]
      obtain ⟨aF, aR⟩ := attach_spec g3 hrx_lt2 hry_lt2 hrootx2 hrooty2 hrxy
      refine ⟨⟨aF, by rw [List.length_set, hrkL2, List.length_set]⟩,
        by rw [List.length_set]; exact hlen2, by simp [hrxy], ?_⟩
      refine ⟨rootOf s.parent j, Or.inr rfl, ?_⟩
      intro z hz
      rw [aR z (by rw [hlen2]; exact hz), hroots2 z hz]
      by_cases hc1 : rootOf s.parent z = rootOf s.parent i
      · rw [if_pos hc1, if_pos (Or.inl hc1)]
      · rw [if_neg hc1]
        by_cases hc2 : rootOf s.parent z = rootOf s.parent j
        · rw [if_pos (Or.inr hc2)]
          exact hc2
        · rw [if_neg (fun hc => by
            rcases hc with hc | hc <;> [exact hc1 hc; exact hc2 hc])]
    · rw [if_neg hlt1]
      obtain ⟨aF, aR⟩ := attach_spec g3 hry_lt2 hrx_lt2 hrooty2 hrootx2
        (fun hh => hrxy hh.symm)
      refine ⟨⟨aF, by rw [List.length_set, hrkL2, List.length_set]⟩,
        by rw [List.length_set]; exact hlen2, by simp [hrxy], ?_⟩
      refine ⟨rootOf s.parent i, Or.inl rfl, ?_⟩
      intro z hz
      rw [aR z (by rw [hlen2]; exact hz), hroots2 z hz]
      by_cases hc2 : rootOf s.parent z = rootOf s.parent j
      · rw [if_pos hc2, if_pos (Or.inr hc2)]
      · rw [if_neg hc2]
        by_cases hc1 : rootOf s.parent z = rootOf s.parent i
        · rw [if_pos (Or.inl hc1)]
          exact hc1
        · rw [if_neg (fun hc => by
            rcases hc with hc | hc <;> [exact hc1 hc; exact hc2 hc])]

theorem init_WFS (n : Nat) :
    WF (init n) ∧ (init n).parent.length = n ∧ (init n).size.length = n := by
  refine ⟨⟨forest_range n, by simp [init]⟩, by simp [init], by simp [init]⟩

theorem applyOp_specS (s : DisjointSet) (o : Op) (h : WF s) :
    WF (applyOp s o) ∧ (applyOp s o).parent.length = s.parent.length ∧
    ∀ a b, a < s.parent.length → b < s.parent.length →
      sameSetL s.parent a b → sameSetL (applyOp s o).parent a b := by
  cases o with
  | find x =>
    rw [show applyOp s (Op.find x) = (find s x).2 from rfl]
    obtain ⟨h1, h2, _, h4⟩ := find_effectS s x h
    refine ⟨h1, h2, ?_⟩
    intro a b ha hb hs
    unfold sameSetL at hs ⊢
    rw [h4 a ha, h4 b hb]
    exact hs
  | conn x y =>
    rw [show applyOp s (Op.conn x y) = (is_connected s x y).2 from rfl]
    obtain ⟨h1, h2, _, h4⟩ := conn_effectS s x y h
    refine ⟨h1, h2, ?_⟩
    intro a b ha hb hs
    unfold sameSetL at hs ⊢
    rw [h4 a ha, h4 b hb]
    exact hs
  | union x y =>
    rw [show applyOp s (Op.union x y) = (union s x y).2 from rfl]
    rcases hfx : (find s x).1 with _ | rx
    · have e1 : find s x = (none, (find s x).2) := by rw [← hfx]
      rw [union_eq_err1S e1]
      obtain ⟨h1, h2, _, h4⟩ := find_effectS s x h
      refine ⟨h1, h2, ?_⟩
      intro a b ha hb hs
      unfold sameSetL at hs ⊢
      rw [h4 a ha, h4 b hb]
      exact hs
    · rcases hfy : (find (find s x).2 y).1 with _ | ry
      · have e1 : find s x = (some rx, (find s x).2) := by rw [← hfx]
        have e2 : find (find s x).2 y = (none, (find (find s x).2 y).2) := by
          rw [← hfy]
        rw [union_eq_err2S e1 e2]
        obtain ⟨h1, h2, _, h4⟩ := find_effectS s x h
        obtain ⟨g1, g2, _, g4⟩ := find_effectS (find s x).2 y h1
        refine ⟨g1, by rw [g2, h2], ?_⟩
        intro a b ha hb hs
        unfold sameSetL at hs ⊢
        rw [g4 a (by rw [h2]; exact ha), g4 b (by rw [h2]; exact hb),
          h4 a ha, h4 b hb]
        exact hs
      · have hfx' : (findE (s.parent.length + 1) s.parent x).1 = some rx := hfx
        obtain ⟨i, hpyx, _⟩ := find_some_inv h.1 hfx'
        have hfy' : (findE ((find s x).2.parent.length + 1)
            (find s x).2.parent y).1 = some ry := hfy
        obtain ⟨h1, h2, _, _⟩ := find_effectS s x h
        obtain ⟨j, hpyj, _⟩ := find_some_inv h1.1 hfy'
        rw [h2] at hpyj
        obtain ⟨u1, u2, _, w, _, hw⟩ := union_specS s x y h hpyx hpyj
        refine ⟨u1, u2, ?_⟩
        intro a b ha hb hs
        unfold sameSetL at hs ⊢
        rw [hw a ha, hw b hb, hs]

theorem exec_specS (ops : List Op) (s : DisjointSet) (h : WF s) :
    WF (exec s ops) ∧ (exec s ops).parent.length = s.parent.length ∧
    ∀ a b, a < s.parent.length → b < s.parent.length →
      sameSetL s.parent a b → sameSetL (exec s ops).parent a b := by
  induction ops generalizing s with
  | nil => exact ⟨h, rfl, fun a b _ _ hs => hs⟩
  | cons o t ih =>
    have hstep := applyOp_specS s o h
    have hrest := ih (applyOp s o) hstep.1
    have hcons : exec s (o :: t) = exec (applyOp s o) t := rfl
    refine ⟨by rw [hcons]; exact hrest.1,
      by rw [hcons, hrest.2.1, hstep.2.1], ?_⟩
    intro a b ha hb hs
    rw [hcons]
    exact hrest.2.2 a b (by rw [hstep.2.1]; exact ha)
      (by rw [hstep.2.1]; exact hb) (hstep.2.2 a b ha hb hs)

theorem Reachable_specS {n : Nat} {s : DisjointSet} (h : Reachable n s) :
    WF s ∧ s.parent.length = n := by
  obtain ⟨ops, rfl⟩ := h
  obtain ⟨h0, hp, _⟩ := init_WFS n
  have he := exec_specS ops (init n) h0
  exact ⟨he.1, by rw [he.2.1, hp]⟩

end BySize

/-! ### The size invariant of the size variant -/

/-- Array `sz` correctly counts class sizes: the entry at each root is the
number of elements whose set has that root. -/
def sizeInv (l sz : List Nat) : Prop :=
  ∀ r < l.length, isRoot l r → sz.getD r 0 = classCard l r

theorem getD_replicate : ∀ {n i v : Nat}, i < n →
    (List.replicate n v).getD i 0 = v
  | 0, _, _, h => absurd h (by omega)
  | _ + 1, 0, _, _ => rfl
  | n + 1, i + 1, v, h => by
    have h' : i < n := by omega
    exact (getD_replicate h' : (List.replicate n v).getD i 0 = v)

theorem classCard_congr {l l' : List Nat} (hlen : l'.length = l.length)
    (hroots : ∀ z < l.length, rootOf l' z = rootOf l z) (r : Nat) :
    classCard l' r = classCard l r := by
  unfold classCard
  rw [hlen]
  congr 1
  apply Finset.filter_congr
  intro z hz
  rw [hroots z (Finset.mem_range.mp hz)]

theorem sizeInv_transfer {l l' sz : List Nat} (hF : Forest l)
    (hF' : Forest l') (hlen : l'.length = l.length)
    (hroots : ∀ z < l.length, rootOf l' z = rootOf l z)
    (h : sizeInv l sz) : sizeInv l' sz := by
  intro r hr hroot
  have hr' : r < l.length := by rw [← hlen]; exact hr
  have hroot' : isRoot l r := by
    rw [isRoot_iff_rootOf_eq hF hr']
    rw [isRoot_iff_rootOf_eq hF' hr] at hroot
    rw [← hroots r hr']
    exact hroot
  rw [h r hr' hroot', classCard_congr hlen hroots]

theorem sizeInv_init (n : Nat) :
    sizeInv (List.range n) (List.replicate n 1) := by
  intro r hr _
  rw [List.length_range] at hr
  rw [getD_replicate hr]
  unfold classCard
  rw [List.length_range]
  have hfe : (Finset.range n).filter (fun z => rootOf (List.range n) z = r) =
      (Finset.range n).filter (fun z => z = r) := by
    apply Finset.filter_congr
    intro z hz
    rw [rootOf_range (Finset.mem_range.mp hz)]
  rw [hfe, Finset.filter_eq']
  rw [if_pos (Finset.mem_range.mpr hr)]
  simp

theorem sizeInv_attach {l sz : List Nat} (hF : Forest l) {a b : Nat}
    (ha : a < l.length) (hb : b < l.length) (hra : isRoot l a)
    (hrb : isRoot l b) (hab : a ≠ b) (hszlen : sz.length = l.length)
    (hinv : sizeInv l sz) :
    sizeInv (l.set a b) (sz.set b (sz.getD b 0 + sz.getD a 0)) := by
  obtain ⟨aF, aR⟩ := attach_spec hF ha hb hra hrb hab
  intro r hr hroot
  have hr' : r < l.length := by rw [← List.length_set l a b]; exact hr
  have hrna : r ≠ a := by
    intro he
    have h2 : (l.set a b).getD r 0 = r := hroot
    rw [he, getD_set_self ha] at h2
    exact hab h2.symm
  by_cases hrb' : r = b
  · rw [hrb']
    rw [getD_set_self (by rw [hszlen]; exact hb)]
    have hcc : classCard (l.set a b) b =
        classCard l b + classCard l a := by
      unfold classCard
      rw [List.length_set]
      have hfilter : (Finset.range l.length).filter
          (fun z => rootOf (l.set a b) z = b) =
          ((Finset.range l.length).filter (fun z => rootOf l z = b)) ∪
          ((Finset.range l.length).filter (fun z => rootOf l z = a)) := by
        ext z
        simp only [Finset.mem_filter, Finset.mem_union, Finset.mem_range]
        constructor
        · rintro ⟨hz, hzr⟩
          rw [aR z hz] at hzr
          by_cases hca : rootOf l z = a
          · exact Or.inr ⟨hz, hca⟩
          · rw [if_neg hca] at hzr
            exact Or.inl ⟨hz, hzr⟩
        · rintro (⟨hz, hzr⟩ | ⟨hz, hzr⟩)
          · refine ⟨hz, ?_⟩
            rw [aR z hz, hzr, if_neg (fun hh => hab hh.symm)]
          · refine ⟨hz, ?_⟩
            rw [aR z hz, hzr, if_pos rfl]
      rw [hfilter, Finset.card_union_of_disjoint]
      rw [Finset.disjoint_left]
      intro z hz1 hz2
      simp only [Finset.mem_filter] at hz1 hz2
      exact hab (by rw [← hz2.2, hz1.2])
    rw [hcc, hinv b hb hrb, hinv a ha hra]
  · rw [getD_set_ne (fun hh => hrb' hh.symm)]
    have hrl : isRoot l r := by
      show l.getD r 0 = r
      rw [← getD_set_ne (l := l) (v := b) (fun hh => hrna hh.symm)]
      exact hroot
    rw [hinv r hr' hrl]
    unfold classCard
    rw [List.length_set]
    congr 1
    apply Finset.filter_congr
    intro z hz
    rw [aR z (Finset.mem_range.mp hz)]
    by_cases hca : rootOf l z = a
    · rw [if_pos hca]
      exact iff_of_false (fun hh => hrna (by rw [← hh]; exact hca))
        (fun hh => hrb' hh.symm)
    · rw [if_neg hca]

theorem sizeInv_sum {l sz : List Nat} (hF : Forest l) (hinv : sizeInv l sz) :
    ∑ r in (Finset.range l.length).filter (fun r => isRoot l r),
      sz.getD r 0 = l.length := by
  have hmap : ∀ i ∈ Finset.range l.length,
      rootOf l i ∈ (Finset.range l.length).filter (fun r => isRoot l r) := by
    intro i hi
    have hi' := Finset.mem_range.mp hi
    exact Finset.mem_filter.mpr
      ⟨Finset.mem_range.mpr (rootOf_lt hF hi'), isRoot_rootOf hF hi'⟩
  have hcard := Finset.card_eq_sum_card_fiberwise hmap
  rw [Finset.card_range] at hcard
  have hsum : ∑ r in (Finset.range l.length).filter (fun r => isRoot l r),
      sz.getD r 0 =
      ∑ r in (Finset.range l.length).filter (fun r => isRoot l r),
      ((Finset.range l.length).filter (fun i => rootOf l i = r)).card := by
    apply Finset.sum_congr rfl
    intro r hr
    have hr' := Finset.mem_filter.mp hr
    exact hinv r (Finset.mem_range.mp hr'.1) hr'.2
  rw [hsum, ← hcard]

namespace BySize

theorem union_size (s : DisjointSet) (x y : Int) (h : WF s)
    (hs : sizeInv s.parent s.size) :
    sizeInv (union s x y).2.parent (union s x y).2.size := by
  rcases hfx : (find s x).1 with _ | rx
  · have e1 : find s x = (none, (find s x).2) := by rw [← hfx]
    rw [union_eq_err1S e1]
    obtain ⟨h1, h2, h3, h4⟩ := find_effectS s x h
    rw [h3]
    exact sizeInv_transfer h.1 h1.1 h2 h4 hs
  · obtain ⟨h1, h2, h3, h4⟩ := find_effectS s x h
    have step1 : sizeInv (find s x).2.parent s.size :=
      sizeInv_transfer h.1 h1.1 h2 h4 hs
    rcases hfy : (find (find s x).2 y).1 with _ | ry
    · have e1 : find s x = (some rx, (find s x).2) := by rw [← hfx]
      have e2 : find (find s x).2 y = (none, (find (find s x).2 y).2) := by
        rw [← hfy]
      rw [union_eq_err2S e1 e2]
      obtain ⟨g1, g2, g3, g4⟩ := find_effectS (find s x).2 y h1
      rw [g3, h3]
      exact sizeInv_transfer h1.1 g1.1 g2 g4 step1
    · have e1 : find s x = (some rx, (find s x).2) := by rw [← hfx]
      have e2 : find (find s x).2 y =
          (some ry, (find (find s x).2 y).2) := by rw [← hfy]
      obtain ⟨g1, g2, g3, g4⟩ := find_effectS (find s x).2 y h1
      have hsz2 : sizeInv (find (find s x).2 y).2.parent
          (find (find s x).2 y).2.size := by
        rw [g3, h3]
        exact sizeInv_transfer h1.1 g1.1 g2 g4 step1
      -- identify the two roots
      have hfx' : (findE (s.parent.length + 1) s.parent x).1 = some rx := hfx
      obtain ⟨i, hpyx, hrxv⟩ := find_some_inv h.1 hfx'
      have hfy' : (findE ((find s x).2.parent.length + 1)
          (find s x).2.parent y).1 = some ry := hfy
      obtain ⟨j, hpyj, hryv⟩ := find_some_inv h1.1 hfy'
      have hi : i < s.parent.length := pyIdx_some_lt hpyx
      have hj : j < s.parent.length := by
        have := pyIdx_some_lt hpyj
        rw [h2] at this
        exact this
      have hrxv2 : rx = rootOf (find (find s x).2 y).2.parent i := by
        rw [hrxv, ← h4 i hi, ← g4 i (by rw [h2]; exact hi)]
      have hryv2 : ry = rootOf (find (find s x).2 y).2.parent j := by
        rw [hryv, ← g4 j (by rw [h2]; exact hj)]
      have hlen3 : (find (find s x).2 y).2.parent.length = s.parent.length := by
        rw [g2, h2]
      have hilt : i < (find (find s x).2 y).2.parent.length := by
        rw [hlen3]; exact hi
      have hjlt : j < (find (find s x).2 y).2.parent.length := by
        rw [hlen3]; exact hj
      have hrx_root : isRoot (find (find s x).2 y).2.parent rx := by
        rw [hrxv2]
        exact isRoot_rootOf g1.1 hilt
      have hry_root : isRoot (find (find s x).2 y).2.parent ry := by
        rw [hryv2]
        exact isRoot_rootOf g1.1 hjlt
      have hrx_lt : rx < (find (find s x).2 y).2.parent.length := by
        rw [hrxv2]
        exact rootOf_lt g1.1 hilt
      have hry_lt : ry < (find (find s x).2 y).2.parent.length := by
        rw [hryv2]
        exact rootOf_lt g1.1 hjlt
      rw [union_eqS e1 e2]
      by_cases hrxy : rx = ry
      · rw [if_pos hrxy]
        exact hsz2
      · rw [if_neg hrxy]
        by_cases hlt1 : (find (find s x).2 y).2.size.getD rx 0 <
            (find (find s x).2 y).2.size.getD ry 0
        · rw [if_pos hlt1]
          dsimp only
          exact sizeInv_attach g1.1 hrx_lt hry_lt hrx_root hry_root hrxy
            g1.2 hsz2
        · rw [if_neg hlt1]
          dsimp only
          exact sizeInv_attach g1.1 hry_lt hrx_lt hry_root hrx_root
            (fun hh => hrxy hh.symm) g1.2 hsz2

theorem applyOp_size (s : DisjointSet) (o : Op) (h : WF s)
    (hs : sizeInv s.parent s.size) :
    sizeInv (applyOp s o).parent (applyOp s o).size := by
  cases o with
  | find x =>
    rw [show applyOp s (Op.find x) = (find s x).2 from rfl]
    obtain ⟨h1, h2, h3, h4⟩ := find_effectS s x h
    rw [h3]
    exact sizeInv_transfer h.1 h1.1 h2 h4 hs
  | conn x y =>
    rw [show applyOp s (Op.conn x y) = (is_connected s x y).2 from rfl]
    obtain ⟨h1, h2, h3, h4⟩ := conn_effectS s x y h
    rw [h3]
    exact sizeInv_transfer h.1 h1.1 h2 h4 hs
  | union x y =>
    rw [show applyOp s (Op.union x y) = (union s x y).2 from rfl]
    exact union_size s x y h hs

theorem exec_size (ops : List Op) (s : DisjointSet) (h : WF s)
    (hs : sizeInv s.parent s.size) :
    sizeInv (exec s ops).parent (exec s ops).size := by
  induction ops generalizing s with
  | nil => exact hs
  | cons o t ih =>
    have hcons : exec s (o :: t) = exec (applyOp s o) t := rfl
    rw [hcons]
    exact ih (applyOp s o) (applyOp_specS s o h).1 (applyOp_size s o h hs)

theorem init_size (n : Nat) : sizeInv (init n).parent (init n).size :=
  sizeInv_init n

end BySize

/-! ### Variant-level result corollaries -/

theorem decide_nat_eq_comm (a b : Nat) : decide (a = b) = decide (b = a) :=
  decide_eq_decide.mpr eq_comm

namespace ByRank

theorem is_connected_result (s : DisjointSet) (h : WF s) {x y : Int}
    {i j : Nat} (hx : pyIdx s.parent.length x = some i)
    (hy : pyIdx s.parent.length y = some j) :
    (is_connected s x y).1 =
      some (decide (rootOf s.parent i = rootOf s.parent j)) := by
  rw [is_connected_def]
  exact conn_result h.1 hx hy

theorem exec_find_iter (xi : Int) : ∀ (k : Nat) (s : DisjointSet), WF s →
    WF (exec s (List.replicate k (Op.find xi))) ∧
    (exec s (List.replicate k (Op.find xi))).parent.length =
      s.parent.length ∧
    ∀ z < s.parent.length,
      rootOf (exec s (List.replicate k (Op.find xi))).parent z =
        rootOf s.parent z := by
  intro k
  induction k with
  | zero => exact fun s h => ⟨h, rfl, fun z _ => rfl⟩
  | succ k ih =>
    intro s h
    have hcons : exec s (List.replicate (k + 1) (Op.find xi)) =
        exec (find s xi).2 (List.replicate k (Op.find xi)) := rfl
    rw [hcons]
    obtain ⟨h1, h2, _, h4⟩ := find_effect s xi h
    obtain ⟨g1, g2, g3⟩ := ih (find s xi).2 h1
    refine ⟨g1, by rw [g2, h2], ?_⟩
    intro z hz
    rw [g3 z (by rw [h2]; exact hz), h4 z hz]

end ByRank

namespace BySize

theorem is_connected_resultS (s : DisjointSet) (h : WF s) {x y : Int}
    {i j : Nat} (hx : pyIdx s.parent.length x = some i)
    (hy : pyIdx s.parent.length y = some j) :
    (is_connected s x y).1 =
      some (decide (rootOf s.parent i = rootOf s.parent j)) := by
  rw [is_connected_defS]
  exact conn_result h.1 hx hy

theorem exec_find_iterS (xi : Int) : ∀ (k : Nat) (s : DisjointSet), WF s →
    WF (exec s (List.replicate k (Op.find xi))) ∧
    (exec s (List.replicate k (Op.find xi))).parent.length =
      s.parent.length ∧
    ∀ z < s.parent.length,
      rootOf (exec s (List.replicate k (Op.find xi))).parent z =
        rootOf s.parent z := by
  intro k
  induction k with
  | zero => exact fun s h => ⟨h, rfl, fun z _ => rfl⟩
  | succ k ih =>
    intro s h
    have hcons : exec s (List.replicate (k + 1) (Op.find xi)) =
        exec (find s xi).2 (List.replicate k (Op.find xi)) := rfl
    rw [hcons]
    obtain ⟨h1, h2, _, h4⟩ := find_effectS s xi h
    obtain ⟨g1, g2, g3⟩ := ih (find s xi).2 h1
    refine ⟨g1, by rw [g2, h2], ?_⟩
    intro z hz
    rw [g3 z (by rw [h2]; exact hz), h4 z hz]

end BySize

/-- The partition after a merge, compared with the partition before it:
two elements are together afterwards exactly when they were already
together, or they straddle the two merged classes. -/
theorem union_join_iff {n : Nat} {F F' : Nat → Nat} {x y w : Nat}
    (hw : w = F x ∨ w = F y)
    (hF' : ∀ z < n, F' z = if F z = F x ∨ F z = F y then w else F z)
    {a b : Nat} (ha : a < n) (hb : b < n) :
    (F' a = F' b) ↔
      (F a = F b ∨ (F a = F x ∧ F b = F y) ∨ (F a = F y ∧ F b = F x)) := by
  rw [hF' a ha, hF' b hb]
  by_cases pa : F a = F x ∨ F a = F y
  · rw [if_pos pa]
    by_cases pb : F b = F x ∨ F b = F y
    · rw [if_pos pb]
      refine ⟨fun _ => ?_, fun _ => rfl⟩
      rcases pa with pa | pa <;> rcases pb with pb | pb
      · exact Or.inl (pa.trans pb.symm)
      · exact Or.inr (Or.inl ⟨pa, pb⟩)
      · exact Or.inr (Or.inr ⟨pa, pb⟩)
      · exact Or.inl (pa.trans pb.symm)
    · rw [if_neg pb]
      constructor
      · intro hwb
        exfalso
        rcases hw with hw | hw <;> rw [hw] at hwb
        · exact pb (Or.inl hwb.symm)
        · exact pb (Or.inr hwb.symm)
      · intro hrhs
        exfalso
        rcases hrhs with hr | ⟨h1, h2⟩ | ⟨h1, h2⟩
        · rcases pa with pa | pa
          · exact pb (Or.inl (hr.symm.trans pa))
          · exact pb (Or.inr (hr.symm.trans pa))
        · exact pb (Or.inr h2)
        · exact pb (Or.inl h2)
  · rw [if_neg pa]
    by_cases pb : F b = F x ∨ F b = F y
    · rw [if_pos pb]
      constructor
      · intro hab
        exfalso
        rcases hw with hw | hw <;> rw [hw] at hab
        · exact pa (Or.inl hab)
        · exact pa (Or.inr hab)
      · intro hrhs
        exfalso
        rcases hrhs with hr | ⟨h1, h2⟩ | ⟨h1, h2⟩
        · rcases pb with pb | pb
          · exact pa (Or.inl (hr.trans pb))
          · exact pa (Or.inr (hr.trans pb))
        · exact pa (Or.inl h1)
        · exact pa (Or.inr h1)
    · rw [if_neg pb]
      constructor
      · exact fun hab => Or.inl hab
      · intro hrhs
        rcases hrhs with hr | ⟨h1, h2⟩ | ⟨h1, h2⟩
        · exact hr
        · exact absurd (Or.inl h1) pa
        · exact absurd (Or.inr h1) pa

/-! ### Failure behavior of the operations on out-of-range indices -/

theorem findE_length : ∀ (f : Nat) (l : List Nat) (x : Int),
    (findE f l x).2.length = l.length := by
  intro f
  induction f with
  | zero => intro l x; rfl
  | succ f ih =>
    intro l x
    cases hpy : pyIdx l.length x with
    | none => rw [findE_none hpy]
    | some i =>
      by_cases hc : x = ((l.getD i 0 : Nat) : Int)
      · have heq : findE (f + 1) l x = (some (l.getD i 0), l) := by
          simp only [findE, hpy]
          rw [if_pos hc]
        rw [heq]
      · rcases hfe : findE f l ((l.getD i 0 : Nat) : Int) with ⟨o, l'⟩
        have hl' : l'.length = l.length := by
          have := ih l ((l.getD i 0 : Nat) : Int)
          rw [hfe] at this
          exact this
        cases o with
        | none =>
          have heq : findE (f + 1) l x = (none, l') := by
            simp only [findE, hpy]
            rw [if_neg hc, hfe]
          rw [heq]
          exact hl'
        | some r =>
          have heq : findE (f + 1) l x =
              (some ((l'.set i r).getD i 0), l'.set i r) := by
            simp only [findE, hpy]
            rw [if_neg hc, hfe]
          rw [heq]
          simp only [List.length_set]
          exact hl'

theorem connE_fst_none_right {l : List Nat} (x : Int) {y : Int}
    (hy : (l.length : Int) ≤ y) : (connE l x y).1 = none := by
  rcases hfx : findE (l.length + 1) l x with ⟨o, l1⟩
  cases o with
  | none => rw [connE_eq_err1 hfx]
  | some rx =>
    have hl1 : l1.length = l.length := by
      have := findE_length (l.length + 1) l x
      rw [hfx] at this
      exact this
    have h2 : findE (l1.length + 1) l1 y = (none, l1) :=
      findE_none (pyIdx_none_of_ge (by rw [hl1]; exact hy)) l1.length
    rw [connE_eq_err2 hfx h2]

theorem rank_union_none_right (s : ByRank.DisjointSet) (x : Int) {y : Int}
    (hy : (s.parent.length : Int) ≤ y) : (ByRank.union s x y).1 = none := by
  rcases hfx : (ByRank.find s x).1 with _ | rx
  · have e1 : ByRank.find s x = (none, (ByRank.find s x).2) := by
      rw [← hfx]
    rw [ByRank.union_eq_err1 e1]
  · have e1 : ByRank.find s x = (some rx, (ByRank.find s x).2) := by
      rw [← hfx]
    have hlen : (ByRank.find s x).2.parent.length = s.parent.length := by
      rw [ByRank.find_def]
      exact findE_length _ _ _
    have e2 : ByRank.find (ByRank.find s x).2 y =
        (none, (ByRank.find s x).2) := by
      rw [ByRank.find_def,
        findE_none (pyIdx_none_of_ge (by rw [hlen]; exact hy))]
    rw [ByRank.union_eq_err2 e1 e2]

theorem size_union_none_right (t : BySize.DisjointSet) (x : Int) {y : Int}
    (hy : (t.parent.length : Int) ≤ y) : (BySize.union t x y).1 = none := by
  rcases hfx : (BySize.find t x).1 with _ | rx
  · have e1 : BySize.find t x = (none, (BySize.find t x).2) := by
      rw [← hfx]
    rw [BySize.union_eq_err1S e1]
  · have e1 : BySize.find t x = (some rx, (BySize.find t x).2) := by
      rw [← hfx]
    have hlen : (BySize.find t x).2.parent.length = t.parent.length := by
      rw [BySize.find_defS]
      exact findE_length _ _ _
    have e2 : BySize.find (BySize.find t x).2 y =
        (none, (BySize.find t x).2) := by
      rw [BySize.find_defS,
        findE_none (pyIdx_none_of_ge (by rw [hlen]; exact hy))]
    rw [BySize.union_eq_err2S e1 e2]

/-! ### The claims -/

theorem findE_claim1 {l : List Nat} (h : Forest l) {x : Nat}
    (hx : x < l.length) :
    (findE (l.length + 1) l (x : Int)).1 = some (rootOf l x) ∧
    isRoot l (rootOf l x) ∧
    (∃ k, (step l)^[k] x = rootOf l x) ∧
    (∀ m < (chainOf l x).length, (chainOf l x).getD m 0 = (step l)^[m] x) ∧
    (chainOf l x).getD ((chainOf l x).length - 1) 0 = rootOf l x ∧
    (∀ v ∈ chainOf l x,
      (findE (l.length + 1) l (x : Int)).2.getD v 0 = rootOf l x) ∧
    (∀ w, w ∉ chainOf l x →
      (findE (l.length + 1) l (x : Int)).2.getD w 0 = l.getD w 0) := by
  obtain ⟨k, hk, hroot⟩ := (h x hx).2
  obtain ⟨f1, _, f3, f4⟩ := findE_spec h (l.length + 1) k x hx (by omega) hroot
  obtain ⟨⟨k2, hk2⟩, hr⟩ := rootOf_spec h hx
  obtain ⟨c1, _, c3, _, _⟩ := chain_spec h hx
  exact ⟨f1, hr, ⟨k2, hk2⟩, c1, c3, f3, f4⟩

/-- Claim C1: for every DisjointSet (of either variant, on a forest
state) and every x in [0, N), `find(x)` follows the parent chain from x
until reaching a root r with `parent[r] == r` (the visited chain is
exactly the iterated parent sequence ending at r), rewrites
`parent[v] = r` for every node v visited along that chain (and no other
entry), and returns r. -/
theorem claim_C1 (s : ByRank.DisjointSet) (t : BySize.DisjointSet) (x : Nat)
    (hs : Forest s.parent) (hsx : x < s.parent.length)
    (ht : Forest t.parent) (htx : x < t.parent.length) :
    ((ByRank.find s (x : Int)).1 = some (rootOf s.parent x) ∧
      isRoot s.parent (rootOf s.parent x) ∧
      (∃ k, (step s.parent)^[k] x = rootOf s.parent x) ∧
      (∀ m < (chainOf s.parent x).length,
        (chainOf s.parent x).getD m 0 = (step s.parent)^[m] x) ∧
      (chainOf s.parent x).getD ((chainOf s.parent x).length - 1) 0 =
        rootOf s.parent x ∧
      (∀ v ∈ chainOf s.parent x,
        (ByRank.find s (x : Int)).2.parent.getD v 0 = rootOf s.parent x) ∧
      (∀ w, w ∉ chainOf s.parent x →
        (ByRank.find s (x : Int)).2.parent.getD w 0 = s.parent.getD w 0)) ∧
    ((BySize.find t (x : Int)).1 = some (rootOf t.parent x) ∧
      isRoot t.parent (rootOf t.parent x) ∧
      (∃ k, (step t.parent)^[k] x = rootOf t.parent x) ∧
      (∀ m < (chainOf t.parent x).length,
        (chainOf t.parent x).getD m 0 = (step t.parent)^[m] x) ∧
      (chainOf t.parent x).getD ((chainOf t.parent x).length - 1) 0 =
        rootOf t.parent x ∧
      (∀ v ∈ chainOf t.parent x,
        (BySize.find t (x : Int)).2.parent.getD v 0 = rootOf t.parent x) ∧
      (∀ w, w ∉ chainOf t.parent x →
        (BySize.find t (x : Int)).2.parent.getD w 0 = t.parent.getD w 0)) := by
  constructor
  · obtain ⟨b1, b2, b3, b4, b5, b6, b7⟩ := findE_claim1 hs hsx
    refine ⟨?_, b2, b3, b4, b5, ?_, ?_⟩
    · rw [ByRank.find_def]
      exact b1
    · intro v hv
      rw [ByRank.find_def]
      exact b6 v hv
    · intro w hw
      rw [ByRank.find_def]
      exact b7 w hw
  · obtain ⟨b1, b2, b3, b4, b5, b6, b7⟩ := findE_claim1 ht htx
    refine ⟨?_, b2, b3, b4, b5, ?_, ?_⟩
    · rw [BySize.find_defS]
      exact b1
    · intro v hv
      rw [BySize.find_defS]
      exact b6 v hv
    · intro w hw
      rw [BySize.find_defS]
      exact b7 w hw

theorem claim_C1_witness :
    (Forest [0, 0, 1] ∧ 2 < ([0, 0, 1] : List Nat).length) ∧
    (ByRank.find (⟨[0, 0, 1], [0, 0, 0]⟩ : ByRank.DisjointSet) (2 : Nat)).1 =
      some (rootOf [0, 0, 1] 2) ∧
    (BySize.find (⟨[0, 0, 1], [1, 1, 1]⟩ : BySize.DisjointSet) (2 : Nat)).1 =
      some (rootOf [0, 0, 1] 2) :=
  ⟨⟨by decide, by decide⟩,
    (claim_C1 ⟨[0, 0, 1], [0, 0, 0]⟩ ⟨[0, 0, 1], [1, 1, 1]⟩ 2
      (by decide) (by decide) (by decide) (by decide)).1.1,
    (claim_C1 ⟨[0, 0, 1], [0, 0, 0]⟩ ⟨[0, 0, 1], [1, 1, 1]⟩ 2
      (by decide) (by decide) (by decide) (by decide)).2.1⟩

/-- Claim C2 counterexample: on the rank variant with N = 4, after
unions (0,1), (2,3), (0,2), the call `union(1, 3)` returns `false`
(1 and 3 are already connected) yet mutates the structure: path
compression inside the two `find` calls rewrites `parent[3]` from 2
to 0. So a `false`-returning union does not leave the structure
unchanged. -/
theorem claim_C2_counterexample :
    (ByRank.union (ByRank.exec (ByRank.init 4)
      [Op.union 0 1, Op.union 2 3, Op.union 0 2]) 1 3).1 = some false ∧
    (ByRank.union (ByRank.exec (ByRank.init 4)
        [Op.union 0 1, Op.union 2 3, Op.union 0 2]) 1 3).2.parent ≠
      (ByRank.exec (ByRank.init 4)
        [Op.union 0 1, Op.union 2 3, Op.union 0 2]).parent := by
  constructor
  · decide
  · decide

/-- Claim C2 (amended): for every DisjointSet (of either variant, on a
well-formed state) and valid x, y, `union(x, y)` returns `false`
exactly when `find(x) == find(y)`, and in that case the logical
partition (the `is_connected` relation) is unchanged — though path
compression may still rewrite `parent` entries, so the representation
need not be unchanged; otherwise it merges the two trees into one
(the resulting partition is the join: two elements are together
afterwards exactly when they already were, or they straddle the two
merged sets) and returns `true`. -/
theorem claim_C2 (s : ByRank.DisjointSet) (t : BySize.DisjointSet)
    (x y : Nat) (hs : ByRank.WF s)
    (hsx : x < s.parent.length) (hsy : y < s.parent.length)
    (ht : BySize.WF t)
    (htx : x < t.parent.length) (hty : y < t.parent.length) :
    (((ByRank.union s (x : Nat) (y : Nat)).1 =
        some (decide (¬ rootOf s.parent x = rootOf s.parent y)) ∧
      (∀ a b, a < s.parent.length → b < s.parent.length →
        (sameSetL (ByRank.union s (x : Nat) (y : Nat)).2.parent a b ↔
          (sameSetL s.parent a b ∨
           (sameSetL s.parent a x ∧ sameSetL s.parent b y) ∨
           (sameSetL s.parent a y ∧ sameSetL s.parent b x)))) ∧
      (rootOf s.parent x = rootOf s.parent y →
        ∀ a b, a < s.parent.length → b < s.parent.length →
          (sameSetL (ByRank.union s (x : Nat) (y : Nat)).2.parent a b ↔
            sameSetL s.parent a b)))) ∧
    (((BySize.union t (x : Nat) (y : Nat)).1 =
        some (decide (¬ rootOf t.parent x = rootOf t.parent y)) ∧
      (∀ a b, a < t.parent.length → b < t.parent.length →
        (sameSetL (BySize.union t (x : Nat) (y : Nat)).2.parent a b ↔
          (sameSetL t.parent a b ∨
           (sameSetL t.parent a x ∧ sameSetL t.parent b y) ∨
           (sameSetL t.parent a y ∧ sameSetL t.parent b x)))) ∧
      (rootOf t.parent x = rootOf t.parent y →
        ∀ a b, a < t.parent.length → b < t.parent.length →
          (sameSetL (BySize.union t (x : Nat) (y : Nat)).2.parent a b ↔
            sameSetL t.parent a b)))) := by
  constructor
  · obtain ⟨_, _, hfst, w, hw, hform⟩ :=
      ByRank.union_spec s x y hs (pyIdx_ofNat hsx) (pyIdx_ofNat hsy)
    have hjoin : ∀ a b, a < s.parent.length → b < s.parent.length →
        (sameSetL (ByRank.union s (x : Nat) (y : Nat)).2.parent a b ↔
          (sameSetL s.parent a b ∨
           (sameSetL s.parent a x ∧ sameSetL s.parent b y) ∨
           (sameSetL s.parent a y ∧ sameSetL s.parent b x))) := by
      intro a b ha hb
      unfold sameSetL
      exact union_join_iff hw hform ha hb
    refine ⟨hfst, hjoin, ?_⟩
    intro hxy a b ha hb
    rw [hjoin a b ha hb]
    unfold sameSetL
    constructor
    · rintro (hj | ⟨h1, h2⟩ | ⟨h1, h2⟩)
      · exact hj
      · rw [h1, h2, hxy]
      · rw [h1, h2, hxy]
    · exact fun hj => Or.inl hj
  · obtain ⟨_, _, hfst, w, hw, hform⟩ :=
      BySize.union_specS t x y ht (pyIdx_ofNat htx) (pyIdx_ofNat hty)
    have hjoin : ∀ a b, a < t.parent.length → b < t.parent.length →
        (sameSetL (BySize.union t (x : Nat) (y : Nat)).2.parent a b ↔
          (sameSetL t.parent a b ∨
           (sameSetL t.parent a x ∧ sameSetL t.parent b y) ∨
           (sameSetL t.parent a y ∧ sameSetL t.parent b x))) := by
      intro a b ha hb
      unfold sameSetL
      exact union_join_iff hw hform ha hb
    refine ⟨hfst, hjoin, ?_⟩
    intro hxy a b ha hb
    rw [hjoin a b ha hb]
    unfold sameSetL
    constructor
    · rintro (hj | ⟨h1, h2⟩ | ⟨h1, h2⟩)
      · exact hj
      · rw [h1, h2, hxy]
      · rw [h1, h2, hxy]
    · exact fun hj => Or.inl hj

theorem claim_C2_witness :
    (ByRank.WF ⟨[0, 0, 2, 2], [1, 0, 1, 0]⟩ ∧
      BySize.WF ⟨[0, 0, 2, 2], [2, 1, 2, 1]⟩) ∧
    (ByRank.union (⟨[0, 0, 2, 2], [1, 0, 1, 0]⟩ : ByRank.DisjointSet)
        (1 : Nat) (3 : Nat)).1 =
      some (decide (¬ rootOf [0, 0, 2, 2] 1 = rootOf [0, 0, 2, 2] 3)) ∧
    (BySize.union (⟨[0, 0, 2, 2], [2, 1, 2, 1]⟩ : BySize.DisjointSet)
        (1 : Nat) (3 : Nat)).1 =
      some (decide (¬ rootOf [0, 0, 2, 2] 1 = rootOf [0, 0, 2, 2] 3)) :=
  ⟨⟨by decide, by decide⟩,
    (claim_C2 ⟨[0, 0, 2, 2], [1, 0, 1, 0]⟩ ⟨[0, 0, 2, 2], [2, 1, 2, 1]⟩ 1 3
      (by decide) (by decide) (by decide) (by decide) (by decide)
      (by decide)).1.1,
    (claim_C2 ⟨[0, 0, 2, 2], [1, 0, 1, 0]⟩ ⟨[0, 0, 2, 2], [2, 1, 2, 1]⟩ 1 3
      (by decide) (by decide) (by decide) (by decide) (by decide)
      (by decide)).2.1⟩

/-- Claim C3 counterexample: on a fresh structure of size 3,
`union(-1, 0)` does not fail with an index error: Python's negative
indexing accepts -1 (it addresses element 2), the call succeeds and
returns `true` (here `none` models a raised error, so a `some` result
means no error was raised). -/
theorem claim_C3_counterexample :
    (ByRank.union (ByRank.init 3) (-1) 0).1 = some true := by
  decide

/-- Claim C3 (amended): every operation (`find`, `union`,
`is_connected`) invoked with an index ≥ size raises an index error
instead of returning a result. When the offending index is the first
one the operation consults, the structure is unchanged — in particular
for N = 3, `find(3)` fails with the fresh structure unchanged. A
failing `union` or `is_connected` whose first index is valid may
however still mutate the structure: the successful first `find`
path-compresses before the error is raised (on the reachable rank
state with parent [0,0,0,2], `union(3, 5)` raises yet rewrites
`parent[3]` to 0). And `union(-1, 0)` does not fail at all: Python's
negative indexing accepts indices in [-size, 0), so the call succeeds,
returns `true`, and silently merges element 2's set with element 0's
set. -/
theorem claim_C3 :
    (∀ (s : ByRank.DisjointSet) (x : Int), (s.parent.length : Int) ≤ x →
      ByRank.find s x = (none, s)) ∧
    (∀ (t : BySize.DisjointSet) (x : Int), (t.parent.length : Int) ≤ x →
      BySize.find t x = (none, t)) ∧
    (∀ (s : ByRank.DisjointSet) (x y : Int), (s.parent.length : Int) ≤ x →
      ByRank.union s x y = (none, s) ∧
      ByRank.is_connected s x y = (none, s)) ∧
    (∀ (t : BySize.DisjointSet) (x y : Int), (t.parent.length : Int) ≤ x →
      BySize.union t x y = (none, t) ∧
      BySize.is_connected t x y = (none, t)) ∧
    (∀ (s : ByRank.DisjointSet) (x y : Int), (s.parent.length : Int) ≤ y →
      (ByRank.union s x y).1 = none ∧
      (ByRank.is_connected s x y).1 = none) ∧
    (∀ (t : BySize.DisjointSet) (x y : Int), (t.parent.length : Int) ≤ y →
      (BySize.union t x y).1 = none ∧
      (BySize.is_connected t x y).1 = none) ∧
    ((ByRank.union (ByRank.exec (ByRank.init 4)
        [Op.union 2 3, Op.union 0 1, Op.union 0 2]) 3 5).1 = none ∧
      (ByRank.union (ByRank.exec (ByRank.init 4)
          [Op.union 2 3, Op.union 0 1, Op.union 0 2]) 3 5).2.parent ≠
        (ByRank.exec (ByRank.init 4)
          [Op.union 2 3, Op.union 0 1, Op.union 0 2]).parent) ∧
    ByRank.find (ByRank.init 3) 3 = (none, ByRank.init 3) ∧
    BySize.find (BySize.init 3) 3 = (none, BySize.init 3) ∧
    ((ByRank.union (ByRank.init 3) (-1) 0).1 = some true ∧
      sameSetL (ByRank.union (ByRank.init 3) (-1) 0).2.parent 2 0) ∧
    ((BySize.union (BySize.init 3) (-1) 0).1 = some true ∧
      sameSetL (BySize.union (BySize.init 3) (-1) 0).2.parent 2 0) := by
  refine ⟨?_, ?_, ?_, ?_, ?_, ?_, ⟨by decide, by decide⟩,
    by decide, by decide, by decide, by decide⟩
  · intro s x hx
    rw [ByRank.find_def, findE_none (pyIdx_none_of_ge hx)]
  · intro t x hx
    rw [BySize.find_defS, findE_none (pyIdx_none_of_ge hx)]
  · intro s x y hx
    have e1 : ByRank.find s x = (none, s) := by
      rw [ByRank.find_def, findE_none (pyIdx_none_of_ge hx)]
    refine ⟨by rw [ByRank.union_eq_err1 e1], ?_⟩
    rw [ByRank.is_connected_def,
      connE_eq_err1 (findE_none (pyIdx_none_of_ge hx) s.parent.length)]
  · intro t x y hx
    have e1 : BySize.find t x = (none, t) := by
      rw [BySize.find_defS, findE_none (pyIdx_none_of_ge hx)]
    refine ⟨by rw [BySize.union_eq_err1S e1], ?_⟩
    rw [BySize.is_connected_defS,
      connE_eq_err1 (findE_none (pyIdx_none_of_ge hx) t.parent.length)]
  · intro s x y hy
    refine ⟨rank_union_none_right s x hy, ?_⟩
    rw [ByRank.is_connected_def]
    exact connE_fst_none_right x hy
  · intro t x y hy
    refine ⟨size_union_none_right t x hy, ?_⟩
    rw [BySize.is_connected_defS]
    exact connE_fst_none_right x hy

theorem claim_C3_witness :
    (((ByRank.init 2).parent.length : Int) ≤ 5 ∧
      ((BySize.init 2).parent.length : Int) ≤ 5) ∧
    ByRank.find (ByRank.init 2) 5 = (none, ByRank.init 2) ∧
    BySize.find (BySize.init 2) 5 = (none, BySize.init 2) ∧
    ByRank.union (ByRank.init 2) 5 0 = (none, ByRank.init 2) ∧
    (BySize.union (BySize.init 2) 0 5).1 = none :=
  ⟨⟨by decide, by decide⟩,
    claim_C3.1 (ByRank.init 2) 5 (by decide),
    claim_C3.2.1 (BySize.init 2) 5 (by decide),
    (claim_C3.2.2.1 (ByRank.init 2) 5 0 (by decide)).1,
    (claim_C3.2.2.2.2.2.1 (BySize.init 2) 0 5 (by decide)).1⟩

/-- Claim C4: in the size variant, when `union` merges two distinct
trees it attaches the root with the smaller weight underneath the root
with the larger weight (on a tie — the `else` branch — rootY is
attached under rootX), and the surviving root's weight becomes the sum
of the two weights. -/
theorem claim_C4 (t : BySize.DisjointSet) (x y : Nat) (h : BySize.WF t)
    (hx : x < t.parent.length) (hy : y < t.parent.length)
    (hne : ¬ rootOf t.parent x = rootOf t.parent y) :
    (BySize.union t (x : Nat) (y : Nat)).1 = some true ∧
    (if t.size.getD (rootOf t.parent x) 0 < t.size.getD (rootOf t.parent y) 0
     then (BySize.union t (x : Nat) (y : Nat)).2.parent.getD
            (rootOf t.parent x) 0 = rootOf t.parent y ∧
          (BySize.union t (x : Nat) (y : Nat)).2.size.getD
            (rootOf t.parent y) 0 =
            t.size.getD (rootOf t.parent y) 0 + t.size.getD (rootOf t.parent x) 0
     else (BySize.union t (x : Nat) (y : Nat)).2.parent.getD
            (rootOf t.parent y) 0 = rootOf t.parent x ∧
          (BySize.union t (x : Nat) (y : Nat)).2.size.getD
            (rootOf t.parent x) 0 =
            t.size.getD (rootOf t.parent x) 0 +
              t.size.getD (rootOf t.parent y) 0) := by
  obtain ⟨_, _, hfst, _⟩ :=
    BySize.union_specS t x y h (pyIdx_ofNat hx) (pyIdx_ofNat hy)
  refine ⟨by rw [hfst, decide_eq_true hne], ?_⟩
  obtain ⟨hF, hSL⟩ := h
  obtain ⟨f1, f2, f3, f4⟩ := findE_ok hF (pyIdx_ofNat hx)
  have e1 : BySize.find t (x : Nat) = (some (rootOf t.parent x),
      ⟨(findE (t.parent.length + 1) t.parent (x : Nat)).2, t.size⟩) := by
    rw [BySize.find_defS, f1]
  set L1 := (findE (t.parent.length + 1) t.parent ((x : Nat) : Int)).2
    with hL1def
  have hy1 : pyIdx L1.length (y : Nat) = some y := by
    rw [f2]; exact pyIdx_ofNat hy
  obtain ⟨g1, g2, g3, g4⟩ := findE_ok f3 hy1
  have hrootj : rootOf L1 y = rootOf t.parent y := f4 y hy
  have e2 : BySize.find (⟨L1, t.size⟩ : BySize.DisjointSet) (y : Nat) =
      (some (rootOf t.parent y),
        ⟨(findE (L1.length + 1) L1 (y : Nat)).2, t.size⟩) := by
    rw [BySize.find_defS]
    dsimp only
    rw [g1, hrootj]
  set L2 := (findE (L1.length + 1) L1 ((y : Nat) : Int)).2 with hL2def
  have hlen2 : L2.length = t.parent.length := by rw [g2, f2]
  have hrx_lt : rootOf t.parent x < t.parent.length := rootOf_lt hF hx
  have hry_lt : rootOf t.parent y < t.parent.length := rootOf_lt hF hy
  have hrx_lt2 : rootOf t.parent x < L2.length := by rw [hlen2]; exact hrx_lt
  have hry_lt2 : rootOf t.parent y < L2.length := by rw [hlen2]; exact hry_lt
  rw [BySize.union_eqS e1 e2]
  dsimp only
  rw [if_neg hne]
  by_cases hlt : t.size.getD (rootOf t.parent x) 0 <
      t.size.getD (rootOf t.parent y) 0
  · rw [if_pos hlt, if_pos hlt]
    dsimp only
    refine ⟨getD_set_self hrx_lt2, ?_⟩
    exact getD_set_self (by rw [hSL]; exact hry_lt)
  · rw [if_neg hlt, if_neg hlt]
    dsimp only
    refine ⟨getD_set_self hry_lt2, ?_⟩
    exact getD_set_self (by rw [hSL]; exact hrx_lt)

theorem claim_C4_witness :
    (BySize.WF ⟨[0, 1], [1, 1]⟩ ∧
      ¬ rootOf [0, 1] 0 = rootOf [0, 1] 1) ∧
    (BySize.union (⟨[0, 1], [1, 1]⟩ : BySize.DisjointSet)
      (0 : Nat) (1 : Nat)).1 = some true :=
  ⟨⟨by decide, by decide⟩,
    (claim_C4 ⟨[0, 1], [1, 1]⟩ 0 1 (by decide) (by decide) (by decide)
      (by decide)).1⟩

/-- Claim C5: in the rank variant, when `union` merges two distinct
trees it attaches the lower-rank root under the higher-rank root
without changing either rank (the whole rank array is untouched); on a
rank tie it attaches rootY under rootX and increments the surviving
root's (rootX's) rank by exactly 1, leaving every other rank entry
unchanged. -/
theorem claim_C5 (s : ByRank.DisjointSet) (x y : Nat) (h : ByRank.WF s)
    (hx : x < s.parent.length) (hy : y < s.parent.length)
    (hne : ¬ rootOf s.parent x = rootOf s.parent y) :
    (ByRank.union s (x : Nat) (y : Nat)).1 = some true ∧
    (if s.rank.getD (rootOf s.parent x) 0 < s.rank.getD (rootOf s.parent y) 0
     then (ByRank.union s (x : Nat) (y : Nat)).2.parent.getD
            (rootOf s.parent x) 0 = rootOf s.parent y ∧
          (ByRank.union s (x : Nat) (y : Nat)).2.rank = s.rank
     else if s.rank.getD (rootOf s.parent y) 0 <
         s.rank.getD (rootOf s.parent x) 0
     then (ByRank.union s (x : Nat) (y : Nat)).2.parent.getD
            (rootOf s.parent y) 0 = rootOf s.parent x ∧
          (ByRank.union s (x : Nat) (y : Nat)).2.rank = s.rank
     else (ByRank.union s (x : Nat) (y : Nat)).2.parent.getD
            (rootOf s.parent y) 0 = rootOf s.parent x ∧
          (ByRank.union s (x : Nat) (y : Nat)).2.rank.getD
            (rootOf s.parent x) 0 = s.rank.getD (rootOf s.parent x) 0 + 1 ∧
          (∀ z, z ≠ rootOf s.parent x →
            (ByRank.union s (x : Nat) (y : Nat)).2.rank.getD z 0 =
              s.rank.getD z 0)) := by
  obtain ⟨_, _, hfst, _⟩ :=
    ByRank.union_spec s x y h (pyIdx_ofNat hx) (pyIdx_ofNat hy)
  refine ⟨by rw [hfst, decide_eq_true hne], ?_⟩
  obtain ⟨hF, hSL⟩ := h
  obtain ⟨f1, f2, f3, f4⟩ := findE_ok hF (pyIdx_ofNat hx)
  have e1 : ByRank.find s (x : Nat) = (some (rootOf s.parent x),
      ⟨(findE (s.parent.length + 1) s.parent (x : Nat)).2, s.rank⟩) := by
    rw [ByRank.find_def, f1]
  set L1 := (findE (s.parent.length + 1) s.parent ((x : Nat) : Int)).2
    with hL1def
  have hy1 : pyIdx L1.length (y : Nat) = some y := by
    rw [f2]; exact pyIdx_ofNat hy
  obtain ⟨g1, g2, g3, g4⟩ := findE_ok f3 hy1
  have hrootj : rootOf L1 y = rootOf s.parent y := f4 y hy
  have e2 : ByRank.find (⟨L1, s.rank⟩ : ByRank.DisjointSet) (y : Nat) =
      (some (rootOf s.parent y),
        ⟨(findE (L1.length + 1) L1 (y : Nat)).2, s.rank⟩) := by
    rw [ByRank.find_def]
    dsimp only
    rw [g1, hrootj]
  set L2 := (findE (L1.length + 1) L1 ((y : Nat) : Int)).2 with hL2def
  have hlen2 : L2.length = s.parent.length := by rw [g2, f2]
  have hrx_lt : rootOf s.parent x < s.parent.length := rootOf_lt hF hx
  have hry_lt : rootOf s.parent y < s.parent.length := rootOf_lt hF hy
  have hrx_lt2 : rootOf s.parent x < L2.length := by rw [hlen2]; exact hrx_lt
  have hry_lt2 : rootOf s.parent y < L2.length := by rw [hlen2]; exact hry_lt
  rw [ByRank.union_eq e1 e2]
  dsimp only
  rw [if_neg hne]
  by_cases hlt1 : s.rank.getD (rootOf s.parent x) 0 <
      s.rank.getD (rootOf s.parent y) 0
  · rw [if_pos hlt1, if_pos hlt1]
    exact ⟨getD_set_self hrx_lt2, rfl⟩
  · rw [if_neg hlt1, if_neg hlt1]
    by_cases hlt2 : s.rank.getD (rootOf s.parent y) 0 <
        s.rank.getD (rootOf s.parent x) 0
    · rw [if_pos hlt2, if_pos hlt2]
      exact ⟨getD_set_self hry_lt2, rfl⟩
    · rw [if_neg hlt2, if_neg hlt2]
      refine ⟨getD_set_self hry_lt2,
        getD_set_self (by rw [hSL]; exact hrx_lt), ?_⟩
      intro z hz
      exact getD_set_ne (fun hh => hz hh.symm)

theorem claim_C5_witness :
    (ByRank.WF ⟨[0, 1], [0, 0]⟩ ∧
      ¬ rootOf [0, 1] 0 = rootOf [0, 1] 1) ∧
    (ByRank.union (⟨[0, 1], [0, 0]⟩ : ByRank.DisjointSet)
      (0 : Nat) (1 : Nat)).1 = some true :=
  ⟨⟨by decide, by decide⟩,
    (claim_C5 ⟨[0, 1], [0, 0]⟩ 0 1 (by decide) (by decide) (by decide)
      (by decide)).1⟩

/-- Claim C6: for every N and every sequence of union/find/is_connected
calls (any reachable state of either variant), `is_connected` is an
equivalence relation: `is_connected(x, x)` is true, `is_connected(x, y)`
equals `is_connected(y, x)`, and connectivity is transitive. -/
theorem claim_C6 (n : Nat) (s : ByRank.DisjointSet) (t : BySize.DisjointSet)
    (hs : ByRank.Reachable n s) (ht : BySize.Reachable n t)
    (x y z : Nat) (hx : x < n) (hy : y < n) (hz : z < n) :
    ((ByRank.is_connected s (x : Nat) (x : Nat)).1 = some true ∧
     (ByRank.is_connected s (x : Nat) (y : Nat)).1 =
       (ByRank.is_connected s (y : Nat) (x : Nat)).1 ∧
     ((ByRank.is_connected s (x : Nat) (y : Nat)).1 = some true →
      (ByRank.is_connected s (y : Nat) (z : Nat)).1 = some true →
      (ByRank.is_connected s (x : Nat) (z : Nat)).1 = some true)) ∧
    ((BySize.is_connected t (x : Nat) (x : Nat)).1 = some true ∧
     (BySize.is_connected t (x : Nat) (y : Nat)).1 =
       (BySize.is_connected t (y : Nat) (x : Nat)).1 ∧
     ((BySize.is_connected t (x : Nat) (y : Nat)).1 = some true →
      (BySize.is_connected t (y : Nat) (z : Nat)).1 = some true →
      (BySize.is_connected t (x : Nat) (z : Nat)).1 = some true)) := by
  constructor
  · obtain ⟨hWF, hlen⟩ := ByRank.Reachable_spec hs
    have hx' : x < s.parent.length := by rw [hlen]; exact hx
    have hy' : y < s.parent.length := by rw [hlen]; exact hy
    have hz' : z < s.parent.length := by rw [hlen]; exact hz
    refine ⟨?_, ?_, ?_⟩
    · rw [ByRank.is_connected_result s hWF (pyIdx_ofNat hx')
        (pyIdx_ofNat hx')]
      simp
    · rw [ByRank.is_connected_result s hWF (pyIdx_ofNat hx')
        (pyIdx_ofNat hy'),
        ByRank.is_connected_result s hWF (pyIdx_ofNat hy')
          (pyIdx_ofNat hx'), decide_nat_eq_comm]
    · intro h1 h2
      rw [ByRank.is_connected_result s hWF (pyIdx_ofNat hx')
        (pyIdx_ofNat hy')] at h1
      rw [ByRank.is_connected_result s hWF (pyIdx_ofNat hy')
        (pyIdx_ofNat hz')] at h2
      rw [ByRank.is_connected_result s hWF (pyIdx_ofNat hx')
        (pyIdx_ofNat hz')]
      have e1 := of_decide_eq_true (Option.some_inj.mp h1)
      have e2 := of_decide_eq_true (Option.some_inj.mp h2)
      rw [decide_eq_true (e1.trans e2)]
  · obtain ⟨hWF, hlen⟩ := BySize.Reachable_specS ht
    have hx' : x < t.parent.length := by rw [hlen]; exact hx
    have hy' : y < t.parent.length := by rw [hlen]; exact hy
    have hz' : z < t.parent.length := by rw [hlen]; exact hz
    refine ⟨?_, ?_, ?_⟩
    · rw [BySize.is_connected_resultS t hWF (pyIdx_ofNat hx')
        (pyIdx_ofNat hx')]
      simp
    · rw [BySize.is_connected_resultS t hWF (pyIdx_ofNat hx')
        (pyIdx_ofNat hy'),
        BySize.is_connected_resultS t hWF (pyIdx_ofNat hy')
          (pyIdx_ofNat hx'), decide_nat_eq_comm]
    · intro h1 h2
      rw [BySize.is_connected_resultS t hWF (pyIdx_ofNat hx')
        (pyIdx_ofNat hy')] at h1
      rw [BySize.is_connected_resultS t hWF (pyIdx_ofNat hy')
        (pyIdx_ofNat hz')] at h2
      rw [BySize.is_connected_resultS t hWF (pyIdx_ofNat hx')
        (pyIdx_ofNat hz')]
      have e1 := of_decide_eq_true (Option.some_inj.mp h1)
      have e2 := of_decide_eq_true (Option.some_inj.mp h2)
      rw [decide_eq_true (e1.trans e2)]

theorem claim_C6_witness :
    (ByRank.Reachable 3 (ByRank.exec (ByRank.init 3) [Op.union 0 1]) ∧
      BySize.Reachable 3 (BySize.exec (BySize.init 3) [Op.union 0 1])) ∧
    (ByRank.is_connected (ByRank.exec (ByRank.init 3) [Op.union 0 1])
      ((0 : Nat) : Int) ((0 : Nat) : Int)).1 = some true ∧
    (BySize.is_connected (BySize.exec (BySize.init 3) [Op.union 0 1])
      ((0 : Nat) : Int) ((0 : Nat) : Int)).1 = some true :=
  ⟨⟨⟨[Op.union 0 1], rfl⟩, ⟨[Op.union 0 1], rfl⟩⟩,
    (claim_C6 3 (ByRank.exec (ByRank.init 3) [Op.union 0 1])
      (BySize.exec (BySize.init 3) [Op.union 0 1])
      ⟨[Op.union 0 1], rfl⟩ ⟨[Op.union 0 1], rfl⟩ 0 0 0
      (by decide) (by decide) (by decide)).1.1,
    (claim_C6 3 (ByRank.exec (ByRank.init 3) [Op.union 0 1])
      (BySize.exec (BySize.init 3) [Op.union 0 1])
      ⟨[Op.union 0 1], rfl⟩ ⟨[Op.union 0 1], rfl⟩ 0 0 0
      (by decide) (by decide) (by decide)).2.1⟩

/-- Claim C7: once `is_connected(x, y)` is true on a reachable state
(of either variant), it remains true after every further sequence of
find/union/is_connected calls, regardless of which unions are
performed. -/
theorem claim_C7 (n : Nat) (s : ByRank.DisjointSet) (t : BySize.DisjointSet)
    (hs : ByRank.Reachable n s) (ht : BySize.Reachable n t)
    (x y : Nat) (hx : x < n) (hy : y < n) :
    (((ByRank.is_connected s (x : Nat) (y : Nat)).1 = some true →
      ∀ ops : List Op,
        (ByRank.is_connected (ByRank.exec s ops) (x : Nat) (y : Nat)).1 =
          some true)) ∧
    (((BySize.is_connected t (x : Nat) (y : Nat)).1 = some true →
      ∀ ops : List Op,
        (BySize.is_connected (BySize.exec t ops) (x : Nat) (y : Nat)).1 =
          some true)) := by
  constructor
  · obtain ⟨hWF, hlen⟩ := ByRank.Reachable_spec hs
    have hx' : x < s.parent.length := by rw [hlen]; exact hx
    have hy' : y < s.parent.length := by rw [hlen]; exact hy
    intro h1 ops
    rw [ByRank.is_connected_result s hWF (pyIdx_ofNat hx')
      (pyIdx_ofNat hy')] at h1
    have hroot := of_decide_eq_true (Option.some_inj.mp h1)
    obtain ⟨eWF, elen, emono⟩ := ByRank.exec_spec ops s hWF
    have hsame := emono x y hx' hy' hroot
    have hx2 : x < (ByRank.exec s ops).parent.length := by
      rw [elen]; exact hx'
    have hy2 : y < (ByRank.exec s ops).parent.length := by
      rw [elen]; exact hy'
    have hsame' : rootOf (ByRank.exec s ops).parent x =
        rootOf (ByRank.exec s ops).parent y := hsame
    rw [ByRank.is_connected_result (ByRank.exec s ops) eWF
      (pyIdx_ofNat hx2) (pyIdx_ofNat hy2), decide_eq_true hsame']
  · obtain ⟨hWF, hlen⟩ := BySize.Reachable_specS ht
    have hx' : x < t.parent.length := by rw [hlen]; exact hx
    have hy' : y < t.parent.length := by rw [hlen]; exact hy
    intro h1 ops
    rw [BySize.is_connected_resultS t hWF (pyIdx_ofNat hx')
      (pyIdx_ofNat hy')] at h1
    have hroot := of_decide_eq_true (Option.some_inj.mp h1)
    obtain ⟨eWF, elen, emono⟩ := BySize.exec_specS ops t hWF
    have hsame := emono x y hx' hy' hroot
    have hx2 : x < (BySize.exec t ops).parent.length := by
      rw [elen]; exact hx'
    have hy2 : y < (BySize.exec t ops).parent.length := by
      rw [elen]; exact hy'
    have hsame' : rootOf (BySize.exec t ops).parent x =
        rootOf (BySize.exec t ops).parent y := hsame
    rw [BySize.is_connected_resultS (BySize.exec t ops) eWF
      (pyIdx_ofNat hx2) (pyIdx_ofNat hy2), decide_eq_true hsame']

theorem claim_C7_witness :
    (ByRank.Reachable 3 (ByRank.exec (ByRank.init 3) [Op.union 0 1]) ∧
      BySize.Reachable 3 (BySize.exec (BySize.init 3) [Op.union 0 1]) ∧
      (ByRank.is_connected (ByRank.exec (ByRank.init 3) [Op.union 0 1])
        ((0 : Nat) : Int) ((1 : Nat) : Int)).1 = some true ∧
      (BySize.is_connected (BySize.exec (BySize.init 3) [Op.union 0 1])
        ((0 : Nat) : Int) ((1 : Nat) : Int)).1 = some true) ∧
    (ByRank.is_connected
      (ByRank.exec (ByRank.exec (ByRank.init 3) [Op.union 0 1])
        [Op.union 1 2])
      ((0 : Nat) : Int) ((1 : Nat) : Int)).1 = some true ∧
    (BySize.is_connected
      (BySize.exec (BySize.exec (BySize.init 3) [Op.union 0 1])
        [Op.union 1 2])
      ((0 : Nat) : Int) ((1 : Nat) : Int)).1 = some true :=
  ⟨⟨⟨[Op.union 0 1], rfl⟩, ⟨[Op.union 0 1], rfl⟩, by decide, by decide⟩,
    (claim_C7 3 (ByRank.exec (ByRank.init 3) [Op.union 0 1])
      (BySize.exec (BySize.init 3) [Op.union 0 1])
      ⟨[Op.union 0 1], rfl⟩ ⟨[Op.union 0 1], rfl⟩ 0 1
      (by decide) (by decide)).1 (by decide) [Op.union 1 2],
    (claim_C7 3 (ByRank.exec (ByRank.init 3) [Op.union 0 1])
      (BySize.exec (BySize.init 3) [Op.union 0 1])
      ⟨[Op.union 0 1], rfl⟩ ⟨[Op.union 0 1], rfl⟩ 0 1
      (by decide) (by decide)).2 (by decide) [Op.union 1 2]⟩

/-- Claim C8: for every valid x, repeated calls to `find(x)` with no
intervening `union` all return the same root, and calling `find`
changes no `is_connected` result: the logical partition observed via
`is_connected` is identical before and after any `find` call (both
variants). -/
theorem claim_C8 (s : ByRank.DisjointSet) (t : BySize.DisjointSet) (x : Nat)
    (hs : ByRank.WF s) (hsx : x < s.parent.length)
    (ht : BySize.WF t) (htx : x < t.parent.length) :
    ((∀ k : Nat,
        (ByRank.find (ByRank.exec s (List.replicate k (Op.find (x : Nat))))
          (x : Nat)).1 = some (rootOf s.parent x)) ∧
      (∀ a b : Nat, a < s.parent.length → b < s.parent.length →
        (ByRank.is_connected (ByRank.find s (x : Nat)).2
            (a : Nat) (b : Nat)).1 =
          (ByRank.is_connected s (a : Nat) (b : Nat)).1)) ∧
    ((∀ k : Nat,
        (BySize.find (BySize.exec t (List.replicate k (Op.find (x : Nat))))
          (x : Nat)).1 = some (rootOf t.parent x)) ∧
      (∀ a b : Nat, a < t.parent.length → b < t.parent.length →
        (BySize.is_connected (BySize.find t (x : Nat)).2
            (a : Nat) (b : Nat)).1 =
          (BySize.is_connected t (a : Nat) (b : Nat)).1)) := by
  constructor
  · constructor
    · intro k
      obtain ⟨kWF, klen, kroots⟩ := ByRank.exec_find_iter ((x : Nat) : Int) k s hs
      have hxk : x < (ByRank.exec s
          (List.replicate k (Op.find (x : Nat)))).parent.length := by
        rw [klen]; exact hsx
      obtain ⟨f1, _, _, _⟩ := findE_ok kWF.1 (pyIdx_ofNat hxk)
      rw [ByRank.find_def, f1, kroots x hsx]
    · intro a b ha hb
      obtain ⟨h1, h2, _, h4⟩ := ByRank.find_effect s ((x : Nat) : Int) hs
      have ha2 : a < (ByRank.find s (x : Nat)).2.parent.length := by
        rw [h2]; exact ha
      have hb2 : b < (ByRank.find s (x : Nat)).2.parent.length := by
        rw [h2]; exact hb
      rw [ByRank.is_connected_result _ h1 (pyIdx_ofNat ha2)
        (pyIdx_ofNat hb2),
        ByRank.is_connected_result s hs (pyIdx_ofNat ha) (pyIdx_ofNat hb),
        h4 a ha, h4 b hb]
  · constructor
    · intro k
      obtain ⟨kWF, klen, kroots⟩ := BySize.exec_find_iterS ((x : Nat) : Int) k t ht
      have hxk : x < (BySize.exec t
          (List.replicate k (Op.find (x : Nat)))).parent.length := by
        rw [klen]; exact htx
      obtain ⟨f1, _, _, _⟩ := findE_ok kWF.1 (pyIdx_ofNat hxk)
      rw [BySize.find_defS, f1, kroots x htx]
    · intro a b ha hb
      obtain ⟨h1, h2, _, h4⟩ := BySize.find_effectS t ((x : Nat) : Int) ht
      have ha2 : a < (BySize.find t (x : Nat)).2.parent.length := by
        rw [h2]; exact ha
      have hb2 : b < (BySize.find t (x : Nat)).2.parent.length := by
        rw [h2]; exact hb
      rw [BySize.is_connected_resultS _ h1 (pyIdx_ofNat ha2)
        (pyIdx_ofNat hb2),
        BySize.is_connected_resultS t ht (pyIdx_ofNat ha) (pyIdx_ofNat hb),
        h4 a ha, h4 b hb]

theorem claim_C8_witness :
    (ByRank.WF ⟨[0, 0, 1], [0, 0, 0]⟩ ∧
      BySize.WF ⟨[0, 0, 1], [1, 1, 1]⟩) ∧
    (ByRank.find (ByRank.exec (⟨[0, 0, 1], [0, 0, 0]⟩ : ByRank.DisjointSet)
        (List.replicate 2 (Op.find ((2 : Nat) : Int)))) ((2 : Nat) : Int)).1 =
      some (rootOf [0, 0, 1] 2) ∧
    (BySize.find (BySize.exec (⟨[0, 0, 1], [1, 1, 1]⟩ : BySize.DisjointSet)
        (List.replicate 2 (Op.find ((2 : Nat) : Int)))) ((2 : Nat) : Int)).1 =
      some (rootOf [0, 0, 1] 2) :=
  ⟨⟨by decide, by decide⟩,
    (claim_C8 ⟨[0, 0, 1], [0, 0, 0]⟩ ⟨[0, 0, 1], [1, 1, 1]⟩ 2
      (by decide) (by decide) (by decide) (by decide)).1.1 2,
    (claim_C8 ⟨[0, 0, 1], [0, 0, 0]⟩ ⟨[0, 0, 1], [1, 1, 1]⟩ 2
      (by decide) (by decide) (by decide) (by decide)).2.1 2⟩

/-- Claim C9: in the size variant, after any sequence of operations
(any reachable state), `size[r]` at each current root r equals the
number of elements whose set has that root, and the sum of `size[r]`
over all current roots equals N. -/
theorem claim_C9 (n : Nat) (t : BySize.DisjointSet)
    (h : BySize.Reachable n t) :
    (∀ r < n, isRoot t.parent r → t.size.getD r 0 = classCard t.parent r) ∧
    (∑ r in (Finset.range n).filter (fun r => isRoot t.parent r),
      t.size.getD r 0) = n := by
  obtain ⟨hWF, hlen⟩ := BySize.Reachable_specS h
  obtain ⟨ops, htt⟩ := h
  have hsz : sizeInv t.parent t.size := by
    rw [htt]
    exact BySize.exec_size ops (BySize.init n) (BySize.init_WFS n).1
      (BySize.init_size n)
  constructor
  · intro r hr hroot
    exact hsz r (by rw [hlen]; exact hr) hroot
  · have hsum := sizeInv_sum hWF.1 hsz
    rw [hlen] at hsum
    exact hsum

theorem claim_C9_witness :
    BySize.Reachable 3 (BySize.exec (BySize.init 3) [Op.union 0 1]) ∧
    (∑ r in (Finset.range 3).filter (fun r =>
        isRoot (BySize.exec (BySize.init 3) [Op.union 0 1]).parent r),
      (BySize.exec (BySize.init 3) [Op.union 0 1]).size.getD r 0) = 3 :=
  ⟨⟨[Op.union 0 1], rfl⟩,
    (claim_C9 3 (BySize.exec (BySize.init 3) [Op.union 0 1])
      ⟨[Op.union 0 1], rfl⟩).2⟩

/-- Claim C10: for every size N ≥ 1 and every negative index x with
-N ≤ x < 0, `find(x)` does not raise: Python's negative indexing makes
`parent[x]` read entry N + x, so `find(x)` returns the root of element
N + x, and `union(-1, 0)` does not fail but silently connects element
N - 1 with element 0 (both variants). -/
theorem claim_C10 (s : ByRank.DisjointSet) (t : BySize.DisjointSet)
    (x : Int) (hs : ByRank.WF s) (hs1 : 1 ≤ s.parent.length)
    (hxs1 : -(s.parent.length : Int) ≤ x) (hx0 : x < 0)
    (ht : BySize.WF t) (ht1 : 1 ≤ t.parent.length)
    (hxt1 : -(t.parent.length : Int) ≤ x) :
    ((ByRank.find s x).1 =
        some (rootOf s.parent ((x + (s.parent.length : Int)).toNat)) ∧
      (ByRank.union s (-1) 0).1 ≠ none ∧
      sameSetL (ByRank.union s (-1) 0).2.parent (s.parent.length - 1) 0) ∧
    ((BySize.find t x).1 =
        some (rootOf t.parent ((x + (t.parent.length : Int)).toNat)) ∧
      (BySize.union t (-1) 0).1 ≠ none ∧
      sameSetL (BySize.union t (-1) 0).2.parent (t.parent.length - 1) 0) := by
  constructor
  · obtain ⟨hpy, hlt⟩ := pyIdx_neg hxs1 hx0
    obtain ⟨f1, _, _, _⟩ := findE_ok hs.1 hpy
    refine ⟨by rw [ByRank.find_def]; exact f1, ?_, ?_⟩
    all_goals {
      obtain ⟨hpm, _⟩ := pyIdx_neg (n := s.parent.length) (x := -1)
        (by omega) (by omega)
      have hm1 : ((-1 : Int) + (s.parent.length : Int)).toNat =
          s.parent.length - 1 := by omega
      rw [hm1] at hpm
      have hpy0 : pyIdx s.parent.length 0 = some 0 := by
        have h0 := pyIdx_ofNat (n := s.parent.length) (j := 0) (by omega)
        simpa using h0
      obtain ⟨_, _, hfst, w, hw, hform⟩ :=
        ByRank.union_spec s (-1) 0 hs hpm hpy0
      first
      | (rw [hfst]; simp)
      | (unfold sameSetL
         rw [hform (s.parent.length - 1) (by omega), hform 0 (by omega),
           if_pos (Or.inl rfl), if_pos (Or.inr rfl)])
    }
  · obtain ⟨hpy, hlt⟩ := pyIdx_neg hxt1 hx0
    obtain ⟨f1, _, _, _⟩ := findE_ok ht.1 hpy
    refine ⟨by rw [BySize.find_defS]; exact f1, ?_, ?_⟩
    all_goals {
      obtain ⟨hpm, _⟩ := pyIdx_neg (n := t.parent.length) (x := -1)
        (by omega) (by omega)
      have hm1 : ((-1 : Int) + (t.parent.length : Int)).toNat =
          t.parent.length - 1 := by omega
      rw [hm1] at hpm
      have hpy0 : pyIdx t.parent.length 0 = some 0 := by
        have h0 := pyIdx_ofNat (n := t.parent.length) (j := 0) (by omega)
        simpa using h0
      obtain ⟨_, _, hfst, w, hw, hform⟩ :=
        BySize.union_specS t (-1) 0 ht hpm hpy0
      first
      | (rw [hfst]; simp)
      | (unfold sameSetL
         rw [hform (t.parent.length - 1) (by omega), hform 0 (by omega),
           if_pos (Or.inl rfl), if_pos (Or.inr rfl)])
    }

theorem claim_C10_witness :
    (ByRank.WF ⟨[0, 0, 1], [0, 0, 0]⟩ ∧ BySize.WF ⟨[0, 0, 1], [1, 1, 1]⟩ ∧
      (-(([0, 0, 1] : List Nat).length : Int) ≤ -1 ∧ (-1 : Int) < 0)) ∧
    (ByRank.find (⟨[0, 0, 1], [0, 0, 0]⟩ : ByRank.DisjointSet) (-1)).1 =
      some (rootOf [0, 0, 1] 2) ∧
    (BySize.find (⟨[0, 0, 1], [1, 1, 1]⟩ : BySize.DisjointSet) (-1)).1 =
      some (rootOf [0, 0, 1] 2) :=
  ⟨⟨by decide, by decide, by decide, by decide⟩,
    (claim_C10 ⟨[0, 0, 1], [0, 0, 0]⟩ ⟨[0, 0, 1], [1, 1, 1]⟩ (-1)
      (by decide) (by decide) (by decide) (by decide) (by decide)
      (by decide) (by decide)).1.1,
    (claim_C10 ⟨[0, 0, 1], [0, 0, 0]⟩ ⟨[0, 0, 1], [1, 1, 1]⟩ (-1)
      (by decide) (by decide) (by decide) (by decide) (by decide)
      (by decide) (by decide)).2.1⟩
